import Mathlib

/-!
# Verification of the SeminarPuzzleGame solving core

Shallow embedding of the sliding-puzzle solving engine:
`puzzle_model.py` (board model and solvability oracle),
`astar_solver.py` (priority search with a binary heap), and
`strategic_solver.py` (constructive layer-reduction solver).

Python integers are embedded as `Int` where subtraction or signed
comparison occurs, tile values as `Nat`.  Python list indexing
(including negative-index wraparound) is embedded by `pyGet`/`pySet`.
Unbounded `while` loops are embedded with an explicit fuel argument;
running out of fuel is a distinguished outcome, so every theorem about
a loop's result is conditional on the loop actually having terminated,
exactly as the Python program only produces a result when it
terminates.
-/

namespace SlidePuzzle

/-- Python index normalisation: a negative index wraps once from the
end of a list of length `len`. -/
def pyIdx (len : Nat) (i : Int) : Int :=
  if i < 0 then (len : Int) + i else i

/-- The normalised index is a valid position of a list of length
`len` (a Python access at an index failing this raises). -/
def inRange (len : Nat) (i : Int) : Prop :=
  0 ≤ pyIdx len i ∧ pyIdx len i < (len : Int)

instance (len : Nat) (i : Int) : Decidable (inRange len i) := by
  unfold inRange; infer_instance

/-- Python list read `l[i]`: negative indices wrap once
(`l[-1]` is the last element); anything still out of range would raise
in Python and returns the default here (no in-range run hits it). -/
def pyGet (d : α) (l : List α) (i : Int) : α :=
  if inRange l.length i then l.getD (pyIdx l.length i).toNat d else d

/-- Python list write `l[i] = v`, same index convention as `pyGet`. -/
def pySet (l : List α) (i : Int) (v : α) : List α :=
  if inRange l.length i then l.set (pyIdx l.length i).toNat v else l

/-- A board is a row-major grid of tile values; 0 is the blank. -/
abbrev Matrix := List (List Nat)

/-- Read the cell `m[r][c]` with Python indexing. -/
def getCell (m : Matrix) (r c : Int) : Nat :=
  pyGet 0 (pyGet [] m r) c

/-- Write the cell `m[r][c] := v` with Python indexing. -/
def setCell (m : Matrix) (r c : Int) (v : Nat) : Matrix :=
  pySet m r (pySet (pyGet [] m r) c v)

/-! ## `puzzle_model.py`: the board model -/

/-- State of `PuzzleModel` (`puzzle_model.py`): square board of
dimension `size`, position of the blank, and move counter. -/
structure PuzzleModel where
  size : Int
  board : Matrix
  empty_pos : Int × Int
  move_count : Nat
deriving DecidableEq, Repr

/-- The four slide directions, in source order: up, down, left, right. -/
def directions : List (Int × Int) := [(-1, 0), (1, 0), (0, -1), (0, 1)]

/-- `PuzzleModel.get_possible_moves`: the in-bounds neighbours of the
blank, in direction order. -/
def get_possible_moves (m : PuzzleModel) : List (Int × Int) :=
  directions.filterMap (fun d =>
    let new_row := m.empty_pos.1 + d.1
    let new_col := m.empty_pos.2 + d.2
    if 0 ≤ new_row ∧ new_row < m.size ∧ 0 ≤ new_col ∧ new_col < m.size then
      some (new_row, new_col)
    else none)

/-- `PuzzleModel.move`: move the tile at `tile_pos` into the blank.
Returns the Python return value together with the updated model
(the Python method mutates `self` in place). -/
def PuzzleModel.move (m : PuzzleModel) (tile_pos : Int × Int) :
    Bool × PuzzleModel :=
  if tile_pos ∉ get_possible_moves m then (false, m)
  else
    let board' := setCell m.board m.empty_pos.1 m.empty_pos.2
        (getCell m.board tile_pos.1 tile_pos.2)
    let board'' := setCell board' tile_pos.1 tile_pos.2 0
    (true, { m with board := board'', empty_pos := tile_pos,
                    move_count := m.move_count + 1 })

/-- `PuzzleModel._count_inversions`: flatten the board row-major,
drop the blank, count out-of-order pairs. -/
def flatBoard (m : PuzzleModel) : List Nat :=
  (m.board.flatten).filter (fun num => num ≠ 0)

/-- The pair-counting loop of `_count_inversions`, reading the
flattened list front to back. -/
def countInversionPairs : List Nat → Nat
  | [] => 0
  | x :: xs => xs.countP (fun y => y < x) + countInversionPairs xs

/-- `PuzzleModel._count_inversions`. -/
def _count_inversions (m : PuzzleModel) : Nat :=
  countInversionPairs (flatBoard m)

/-- `PuzzleModel.is_solvable`: parity test on inversions, with the
even-size correction using the blank's row from the bottom. -/
def is_solvable (m : PuzzleModel) : Bool :=
  let inversions := _count_inversions m
  if m.size % 2 == 1 then
    inversions % 2 == 0
  else
    let empty_row_from_bottom : Int := m.size - m.empty_pos.1
    ((inversions : Int) + empty_row_from_bottom) % 2 == 1

/-! ## Spec-side vocabulary -/

/-- Orthogonal adjacency of two cells (the spec's "adjacent to the
blank"). -/
def adjacent (p q : Int × Int) : Prop :=
  (p.1 - q.1).natAbs + (p.2 - q.2).natAbs = 1

instance (p q : Int × Int) : Decidable (adjacent p q) := by
  unfold adjacent; infer_instance

/-- The cell `p` lies on an `n × n` board. -/
def inBounds (n : Int) (p : Int × Int) : Prop :=
  0 ≤ p.1 ∧ p.1 < n ∧ 0 ≤ p.2 ∧ p.2 < n

instance (n : Int) (p : Int × Int) : Decidable (inBounds n p) := by
  unfold inBounds; infer_instance

/-- Well-formed model: positive size, `size × size` board, blank
position in bounds. -/
def WFModel (m : PuzzleModel) : Prop :=
  0 < m.size ∧ m.board.length = m.size.toNat ∧
    (∀ row ∈ m.board, row.length = m.size.toNat) ∧
    inBounds m.size m.empty_pos

/-- A rectangular `rows × cols` matrix. -/
def WFMat (rows cols : Nat) (m : Matrix) : Prop :=
  m.length = rows ∧ ∀ row ∈ m, row.length = cols

/-- A two-element list that is strictly descending. -/
def isDescPair : List Nat → Bool
  | [a, b] => b < a
  | _ => false

/-- Spec-side inversion count: the number of (ordered, left-to-right)
pairs of entries of `l` that are out of ascending order, phrased as
the 2-element sublists `[a, b]` with `a > b`. -/
def specInversions (l : List Nat) : Nat :=
  ((l.sublistsLen 2).filter isDescPair).length

/-! ## `heapq`: Python's binary heap, as used by `astar_solver.py`

The solver orders `PuzzleState`s only through `__lt__` (comparison of
`f_cost`), so the heap is embedded generically over a strict
comparison `lt`.  The sift loops are translated with a fuel argument
that is always at least the number of iterations the Python loop can
perform (`_siftdown` strictly decreases `pos`, `_siftup` at least
doubles it), so the embedding computes exactly what `heapq` computes. -/

/-- The loop of `heapq._siftdown`: bubble `newitem` up from `pos`
towards `startpos`, moving larger parents down. -/
def siftdownAux (lt : α → α → Bool) (startpos : Nat) (newitem : α) :
    Nat → Nat → List α → List α
  | 0, pos, heap => heap.set pos newitem
  | fuel + 1, pos, heap =>
    if startpos < pos then
      let parentpos := (pos - 1) / 2
      let parent := heap.getD parentpos newitem
      if lt newitem parent then
        siftdownAux lt startpos newitem fuel parentpos (heap.set pos parent)
      else heap.set pos newitem
    else heap.set pos newitem

/-- The loop of `heapq._siftup`: move the smaller child up until a
leaf is reached, then restore `newitem` by a `_siftdown`. -/
def siftupAux (lt : α → α → Bool) (endpos : Nat) (newitem : α)
    (startpos : Nat) : Nat → Nat → List α → List α
  | 0, pos, heap =>
    siftdownAux lt startpos newitem (pos + 1) pos (heap.set pos newitem)
  | fuel + 1, pos, heap =>
    let childpos := 2 * pos + 1
    if childpos < endpos then
      let rightpos := childpos + 1
      let childpos :=
        if rightpos < endpos ∧
            ¬ lt (heap.getD childpos newitem) (heap.getD rightpos newitem)
        then rightpos else childpos
      siftupAux lt endpos newitem startpos fuel childpos
        (heap.set pos (heap.getD childpos newitem))
    else siftdownAux lt startpos newitem (pos + 1) pos (heap.set pos newitem)

/-- `heapq.heappush`: append, then sift the new item down towards the
root. -/
def heappush (lt : α → α → Bool) (heap : List α) (item : α) : List α :=
  siftdownAux lt 0 item (heap.length + 1) heap.length (heap ++ [item])

/-- `heapq._siftup heap pos` with `newitem = heap[pos]` supplied by
the caller. -/
def _siftup (lt : α → α → Bool) (heap : List α) (pos : Nat) (newitem : α) :
    List α :=
  siftupAux lt heap.length newitem pos (heap.length + 1) pos heap

/-- `heapq.heappop`: pop the last element, move it to the root, sift
up; `none` models the `IndexError` on an empty heap. -/
def heappop (lt : α → α → Bool) (heap : List α) : Option (α × List α) :=
  match heap.getLast? with
  | none => none
  | some lastelt =>
    let rest := heap.dropLast
    if rest.isEmpty then some (lastelt, rest)
    else some (rest.headD lastelt, _siftup lt (rest.set 0 lastelt) 0 lastelt)

/-! ## `astar_solver.py` -/

/-- `manhattan_distance board size`: sum over non-blank tiles of the
distance to the tile's goal cell. -/
def manhattan_distance (board : Matrix) (size : Nat) : Nat :=
  (List.range size).foldl (fun acc (i : Nat) =>
    (List.range size).foldl (fun acc (j : Nat) =>
      let value := getCell board i j
      if value ≠ 0 then
        let goal_row := (value - 1) / size
        let goal_col := (value - 1) % size
        acc + (((i : Int) - goal_row).natAbs + ((j : Int) - goal_col).natAbs)
      else acc) acc) 0

/-- `PuzzleState` of `astar_solver.py`.  In the source `parent` and
`move` are optional and are either both `None` (the initial state) or
both set (a state produced by `_get_neighbors`); the two constructors
embed exactly those two shapes. -/
inductive ANode where
  | root (board : Matrix) (empty_pos : Int × Int) (g_cost h_cost : Nat)
  | child (board : Matrix) (empty_pos : Int × Int) (g_cost h_cost : Nat)
      (parent : ANode) (move : Int × Int)
deriving DecidableEq, Repr

def ANode.board : ANode → Matrix
  | .root b _ _ _ => b
  | .child b _ _ _ _ _ => b

def ANode.empty_pos : ANode → Int × Int
  | .root _ p _ _ => p
  | .child _ p _ _ _ _ => p

def ANode.g_cost : ANode → Nat
  | .root _ _ g _ => g
  | .child _ _ g _ _ _ => g

def ANode.h_cost : ANode → Nat
  | .root _ _ _ h => h
  | .child _ _ _ h _ _ => h

/-- `f_cost = g_cost + h_cost`, computed in `PuzzleState.__init__`. -/
def ANode.f_cost (s : ANode) : Nat := s.g_cost + s.h_cost

/-- `PuzzleState.__lt__`: compare by `f_cost` only. -/
def ANode.lt (a b : ANode) : Bool := a.f_cost < b.f_cost

/-- `AStarSolver._is_goal`: tiles `1, 2, …` in row-major order with
the blank in the last cell. -/
def _is_goal (size : Nat) (board : Matrix) : Bool :=
  decide (∀ i < size, ∀ j < size,
    (i = size - 1 ∧ j = size - 1 → getCell board i j = 0) ∧
    (¬ (i = size - 1 ∧ j = size - 1) →
      getCell board i j = i * size + j + 1))

/-- The canonical goal board (`StrategicSolver._create_goal_board`). -/
def goalBoard (size : Nat) : Matrix :=
  (List.range size).map (fun i => (List.range size).map (fun j =>
    if i = size - 1 ∧ j = size - 1 then 0 else i * size + j + 1))

/-- `AStarSolver._get_neighbors`: one state per direction in which the
blank stays on the board; the parent's board with the blank swapped
with the neighbouring tile. -/
def _get_neighbors (size : Nat) (state : ANode) : List ANode :=
  directions.filterMap (fun d =>
    let new_row := state.empty_pos.1 + d.1
    let new_col := state.empty_pos.2 + d.2
    if 0 ≤ new_row ∧ new_row < (size : Int) ∧
        0 ≤ new_col ∧ new_col < (size : Int) then
      let new_board := setCell
        (setCell state.board state.empty_pos.1 state.empty_pos.2
          (getCell state.board new_row new_col)) new_row new_col 0
      some (.child new_board (new_row, new_col) (state.g_cost + 1)
        (manhattan_distance new_board size) state (new_row, new_col))
    else none)

/-- `AStarSolver._reconstruct_path`: follow parent links to the root
collecting the moves, then reverse (embedded directly in root-to-goal
order). -/
def _reconstruct_path : ANode → List (Int × Int)
  | .root _ _ _ _ => []
  | .child _ _ _ _ parent move => _reconstruct_path parent ++ [move]

/-- First-match lookup in the `best_g` association (dict keyed by
board, as `PuzzleState.__eq__`/`__hash__` use only the board). -/
def lookupBoard (l : List (Matrix × Nat)) (b : Matrix) : Option Nat :=
  (l.find? (fun e => e.1 == b)).map (·.2)

/-- Outcome of `AStarSolver.solve`.  The Python function returns
`None` both on timeout and on an exhausted open set (`pyNone`), a
move list on success, and `fuelOut` marks a run whose fuel ran out
before the Python loop would have returned. -/
inductive AResult where
  | fuelOut
  | pyNone
  | path (moves : List (Int × Int))
deriving DecidableEq, Repr

/-- One neighbour of the expansion loop body of `AStarSolver.solve`:
skip closed boards, record and push when the path is better than any
known one. -/
def expandNeighbor (closed_set : List Matrix)
    (acc : List (Matrix × Nat) × List ANode) (neighbor : ANode) :
    List (Matrix × Nat) × List ANode :=
  if neighbor.board ∈ closed_set then acc
  else
    match lookupBoard acc.1 neighbor.board with
    | some g =>
      if neighbor.g_cost < g then
        ((neighbor.board, neighbor.g_cost) :: acc.1,
          heappush ANode.lt acc.2 neighbor)
      else acc
    | none =>
      ((neighbor.board, neighbor.g_cost) :: acc.1,
        heappush ANode.lt acc.2 neighbor)

/-- The main loop of `AStarSolver.solve`.  `timeHit n` is the result
of the wall-clock test `time.time() - start_time > self.max_time` at
the `n`-th iteration. -/
def solveLoop (size : Nat) (timeHit : Nat → Bool) :
    Nat → List ANode → List Matrix → List (Matrix × Nat) → Nat → AResult
  | 0, _, _, _, _ => .fuelOut
  | fuel + 1, open_set, closed_set, best_g, n =>
    if open_set.isEmpty then .pyNone
    else if timeHit n then .pyNone
    else
      match heappop ANode.lt open_set with
      | none => .pyNone
      | some (current, opened) =>
        if current.board ∈ closed_set then
          solveLoop size timeHit fuel opened closed_set best_g (n + 1)
        else if _is_goal size current.board then
          .path (_reconstruct_path current)
        else
          let closed' := current.board :: closed_set
          let acc := (_get_neighbors size current).foldl
            (expandNeighbor closed') (best_g, opened)
          solveLoop size timeHit fuel acc.2 closed' acc.1 (n + 1)

/-- `AStarSolver.solve`. -/
def AStarSolver.solve (size : Nat) (timeHit : Nat → Bool) (fuel : Nat)
    (initial_board : Matrix) (initial_empty_pos : Int × Int) : AResult :=
  let h_cost := manhattan_distance initial_board size
  let initial_state : ANode := .root initial_board initial_empty_pos 0 h_cost
  let open_set := heappush ANode.lt [] initial_state
  solveLoop size timeHit fuel open_set [] [(initial_board, 0)] 0

/-! ## `strategic_solver.py`: the layer-reduction solver

Every function below is a direct translation of the correspondingly
named Python function.  The Python code mutates one `Puzzle` object in
place; here every function takes and returns the `Puzzle` state.
`while` loops whose termination depends on the board contents take a
fuel argument and return `none` (or a `fuelOut` marker) when the fuel
runs out, which models the Python loop not terminating. -/

/-- `Puzzle._find_blank`: first cell containing 0, scanning row-major;
`none` models the `ValueError` when there is no blank. -/
def findBlankAux : Nat → Matrix → Option (Int × Int)
  | _, [] => none
  | i, row :: rest =>
    match row.findIdx? (fun v => v == 0) with
    | some j => some ((i : Int), (j : Int))
    | none => findBlankAux (i + 1) rest

/-- State of the `Puzzle` class of `strategic_solver.py`. -/
structure Puzzle where
  matrix : Matrix
  rows : Int
  cols : Int
  blank_row : Int
  blank_col : Int
  top_row_progress : Int
  left_col_progress : Int
  bot_row_progress : Int
  right_col_progress : Int
  row_in_progress : Int
  col_in_progress : Int
  row_progress_col : Int
  col_progress_row : Int
  solving_row_top_down : Bool
  solving_col_left_right : Bool
  solving_row : Bool
  coord_moves : List (Int × Int)
deriving DecidableEq, Repr

/-- `Puzzle.__init__`. -/
def Puzzle.init (board : Matrix) : Option Puzzle :=
  match findBlankAux 0 board with
  | none => none
  | some (br, bc) =>
    some { matrix := board
           rows := (board.length : Int)
           cols := ((board.headD []).length : Int)
           blank_row := br, blank_col := bc
           top_row_progress := 0, left_col_progress := 0
           bot_row_progress := (board.length : Int) - 1
           right_col_progress := ((board.headD []).length : Int) - 1
           row_in_progress := 0, col_in_progress := 0
           row_progress_col := 0, col_progress_row := 0
           solving_row_top_down := true, solving_col_left_right := true
           solving_row := true
           coord_moves := [] }

def Puzzle.can_slide_up (p : Puzzle) : Bool := p.blank_row > p.top_row_progress

def Puzzle.can_slide_down (p : Puzzle) : Bool := p.blank_row < p.bot_row_progress

def Puzzle.can_slide_left (p : Puzzle) : Bool := p.blank_col > p.left_col_progress

def Puzzle.can_slide_right (p : Puzzle) : Bool :=
  p.blank_col < p.right_col_progress

/-- `Puzzle._swap`: Python tuple swap of two cells (both right-hand
sides read before either write). -/
def swapCells (m : Matrix) (r1 c1 r2 c2 : Int) : Matrix :=
  setCell (setCell m r1 c1 (getCell m r2 c2)) r2 c2 (getCell m r1 c1)

/-- `Puzzle.slide_up`: blank moves up; records the coordinate of the
tile above the blank. -/
def Puzzle.slide_up (p : Puzzle) : Puzzle :=
  if p.blank_row > 0 then
    { p with coord_moves := p.coord_moves ++ [(p.blank_row - 1, p.blank_col)]
             matrix := swapCells p.matrix p.blank_row p.blank_col
               (p.blank_row - 1) p.blank_col
             blank_row := p.blank_row - 1 }
  else p

/-- `Puzzle.slide_down`. -/
def Puzzle.slide_down (p : Puzzle) : Puzzle :=
  if p.blank_row < p.rows - 1 then
    { p with coord_moves := p.coord_moves ++ [(p.blank_row + 1, p.blank_col)]
             matrix := swapCells p.matrix p.blank_row p.blank_col
               (p.blank_row + 1) p.blank_col
             blank_row := p.blank_row + 1 }
  else p

/-- `Puzzle.slide_left`. -/
def Puzzle.slide_left (p : Puzzle) : Puzzle :=
  if p.blank_col > 0 then
    { p with coord_moves := p.coord_moves ++ [(p.blank_row, p.blank_col - 1)]
             matrix := swapCells p.matrix p.blank_row p.blank_col
               p.blank_row (p.blank_col - 1)
             blank_col := p.blank_col - 1 }
  else p

/-- `Puzzle.slide_right`. -/
def Puzzle.slide_right (p : Puzzle) : Puzzle :=
  if p.blank_col < p.cols - 1 then
    { p with coord_moves := p.coord_moves ++ [(p.blank_row, p.blank_col + 1)]
             matrix := swapCells p.matrix p.blank_row p.blank_col
               p.blank_row (p.blank_col + 1)
             blank_col := p.blank_col + 1 }
  else p

/-- `Puzzle.is_equal_to_puzzle`: matrix comparison. -/
def Puzzle.is_equal_to_puzzle (a b : Puzzle) : Bool := a.matrix == b.matrix

/-- `Puzzle.get_matrix_mapping` looked up at `v`: the position of the
tile with value `v` (for a duplicate value the last occurrence wins,
as in a Python dict built by iteration; a missing value would raise a
`KeyError` in Python and yields `(0, 0)` here). -/
def matrixMapping (m : Matrix) (v : Nat) : Int × Int :=
  m.enum.foldl (fun acc ir =>
    ir.2.enum.foldl (fun acc jv =>
      if jv.2 = v then ((ir.1 : Int), (jv.1 : Int)) else acc) acc)
    ((0 : Int), (0 : Int))

/-- `Puzzle.is_row_equal`. -/
def is_row_equal (goal_puzzle p : Puzzle) (row : Int) : Bool :=
  pyGet [] goal_puzzle.matrix row == pyGet [] p.matrix row

/-- `Puzzle.is_col_equal`. -/
def is_col_equal (goal_puzzle p : Puzzle) (col : Int) : Bool :=
  decide (∀ r ∈ List.range p.rows.toNat,
    getCell goal_puzzle.matrix (r : Int) col = getCell p.matrix (r : Int) col)

def more_than_two_unsolved_rows (p : Puzzle) : Bool :=
  p.bot_row_progress + 1 - p.top_row_progress > 2

def more_than_two_unsolved_cols (p : Puzzle) : Bool :=
  p.right_col_progress + 1 - p.left_col_progress > 2

def more_unsolved_rows_than_cols (p : Puzzle) : Bool :=
  p.bot_row_progress - p.top_row_progress + 1 ≥
    p.right_col_progress + 1 - p.left_col_progress

def more_unsolved_cols_than_rows (p : Puzzle) : Bool :=
  p.right_col_progress + 1 - p.left_col_progress >
    p.bot_row_progress + 1 - p.top_row_progress

def col_finished_and_not_in_goal_col (goal_puzzle p : Puzzle) : Bool :=
  is_col_equal goal_puzzle p p.col_in_progress &&
    !(p.col_in_progress == goal_puzzle.blank_col)

def row_finished_and_not_in_goal_row (goal_puzzle p : Puzzle) : Bool :=
  is_row_equal goal_puzzle p p.row_in_progress &&
    !(p.row_in_progress == goal_puzzle.blank_row)

def unsolved_puzzle_is_two_by_two (p : Puzzle) : Bool :=
  p.bot_row_progress + 1 - p.top_row_progress == 2 &&
    p.right_col_progress + 1 - p.left_col_progress == 2

/-- `move_blank_to_col`: slide horizontally until the blank is in the
target column (fuel bounds the Python `while`). -/
def move_blank_to_col : Nat → Puzzle → Int → Option Puzzle
  | 0, _, _ => none
  | fuel + 1, p, target_col =>
    if p.blank_col ≠ target_col then
      if p.blank_col < target_col then
        move_blank_to_col fuel p.slide_right target_col
      else
        move_blank_to_col fuel p.slide_left target_col
    else some p

/-- `move_blank_to_row`. -/
def move_blank_to_row : Nat → Puzzle → Int → Option Puzzle
  | 0, _, _ => none
  | fuel + 1, p, target_row =>
    if p.blank_row ≠ target_row then
      if p.blank_row < target_row then
        move_blank_to_row fuel p.slide_down target_row
      else
        move_blank_to_row fuel p.slide_up target_row
    else some p

/-- `move_blank_left_or_right`. -/
def move_blank_left_or_right (p : Puzzle) : Puzzle :=
  if p.blank_col == p.right_col_progress then p.slide_left
  else if p.blank_col == p.left_col_progress then p.slide_right
  else if p.solving_col_left_right then p.slide_right
  else p.slide_left

/-- `move_blank_up_or_down`. -/
def move_blank_up_or_down (p : Puzzle) : Puzzle :=
  if p.blank_row == p.top_row_progress then p.slide_down
  else if p.blank_row == p.bot_row_progress then p.slide_up
  else if p.solving_row_top_down then p.slide_down
  else p.slide_up

/-- The `tile` dict built in `move_tile` and threaded through the
four `move_tile_*` helpers. -/
structure Tile where
  value : Nat
  row : Int
  col : Int
  goal_row : Int
  goal_col : Int
deriving DecidableEq, Repr

/-- `move_tile_left`. -/
def move_tile_left (fuel : Nat) (p : Puzzle) (tile : Tile) : Option Puzzle := do
  let p := if p.blank_col > tile.col ∧ tile.row = p.blank_row then
      move_blank_up_or_down p else p
  let p ←
    if ¬ p.solving_row ∧ p.solving_col_left_right then
      if tile.col = p.col_in_progress + 1 then
        if tile.row ≠ p.bot_row_progress then
          if p.blank_col ≥ tile.col ∧ p.blank_row < tile.row then do
            let p ← move_blank_to_col fuel p (tile.col + 1)
            move_blank_to_row fuel p (tile.row + 1)
          else pure p
        else do
          let p ← move_blank_to_row fuel p (tile.row - 1)
          move_blank_to_col fuel p tile.col
      else pure p
    else pure p
  let p ← move_blank_to_col fuel p (tile.col - 1)
  let p ← move_blank_to_row fuel p tile.row
  pure p.slide_right

/-- `move_tile_right`. -/
def move_tile_right (fuel : Nat) (p : Puzzle) (tile : Tile) :
    Option Puzzle := do
  let p := if p.blank_col < tile.col ∧ tile.row = p.blank_row then
      move_blank_up_or_down p else p
  let p ←
    if p.solving_row then
      if p.solving_row_top_down then
        pure (if p.blank_row = p.row_in_progress ∧
            (p.blank_row + 1 ≠ tile.row ∨ p.blank_col ≠ tile.col) then
          (if p.can_slide_down then p.slide_down else p)
        else p)
      else
        pure (if p.blank_row = p.row_in_progress ∧
            (p.blank_row - 1 ≠ tile.row ∨ p.blank_col ≠ tile.col) then
          (if p.can_slide_up then p.slide_up else p)
        else p)
    else
      if ¬ p.solving_col_left_right then
        if tile.col = p.col_in_progress - 1 then
          if tile.row ≠ p.bot_row_progress then
            if p.blank_col ≤ tile.col ∧ p.blank_row < tile.row then do
              let p ← move_blank_to_col fuel p (tile.col - 1)
              move_blank_to_row fuel p (tile.row + 1)
            else pure p
          else do
            let p ← move_blank_to_row fuel p (tile.row - 1)
            move_blank_to_col fuel p tile.col
        else pure p
      else pure p
  let p ← move_blank_to_col fuel p (tile.col + 1)
  let p ← move_blank_to_row fuel p tile.row
  pure p.slide_left

/-- `move_tile_up`. -/
def move_tile_up (fuel : Nat) (p : Puzzle) (tile : Tile) : Option Puzzle := do
  let p ←
    if p.solving_row ∧ p.solving_row_top_down then
      if tile.row = p.row_in_progress + 1 then
        if tile.col ≠ p.right_col_progress then
          if p.blank_col ≤ tile.col ∧ p.blank_row ≥ tile.row then do
            let p ← move_blank_to_row fuel p (tile.row + 1)
            move_blank_to_col fuel p (tile.col + 1)
          else pure p
        else do
          let p ← move_blank_to_col fuel p (tile.col - 1)
          move_blank_to_row fuel p tile.row
      else pure p
    else pure p
  let p := if p.blank_row > tile.row ∧ p.blank_col = tile.col then
      move_blank_left_or_right p else p
  let p ← move_blank_to_row fuel p (tile.row - 1)
  let p ← move_blank_to_col fuel p tile.col
  pure p.slide_down

/-- `move_tile_down`. -/
def move_tile_down (fuel : Nat) (p : Puzzle) (tile : Tile) :
    Option Puzzle := do
  let p :=
    if ¬ p.solving_row then
      if p.solving_col_left_right then
        if p.blank_col = p.col_in_progress ∧
            (p.blank_col + 1 ≠ tile.col ∨ p.blank_row ≠ tile.row) then
          (if p.can_slide_right then p.slide_right else p)
        else p
      else
        if p.blank_col = p.col_in_progress ∧
            (p.blank_col - 1 ≠ tile.col ∨ p.blank_row ≠ tile.row) then
          (if p.can_slide_left then p.slide_left else p)
        else p
    else p
  let p ←
    if p.solving_row ∧ ¬ p.solving_row_top_down then
      if tile.row = p.row_in_progress - 1 then
        if tile.col ≠ p.right_col_progress then
          if p.blank_col ≤ tile.col ∧ p.blank_row ≤ tile.row then do
            let p ← move_blank_to_row fuel p (tile.row - 1)
            move_blank_to_col fuel p (tile.col + 1)
          else pure p
        else do
          let p ← move_blank_to_col fuel p (tile.col - 1)
          move_blank_to_row fuel p tile.row
      else pure p
    else pure p
  let p := if p.blank_row < tile.row ∧ p.blank_col = tile.col then
      move_blank_left_or_right p else p
  let p ← move_blank_to_row fuel p (tile.row + 1)
  let p ← move_blank_to_col fuel p tile.col
  pure p.slide_up

/-- The `while tile.col > goal_col` loop of `move_tile`. -/
def moveTileLoopLeft (fuel : Nat) (goal_col : Int) :
    Nat → Puzzle → Tile → Option (Puzzle × Tile)
  | 0, _, _ => none
  | n + 1, p, t =>
    if t.col > goal_col then do
      let p ← move_tile_left fuel p t
      moveTileLoopLeft fuel goal_col n p { t with col := t.col - 1 }
    else some (p, t)

/-- The `while tile.col < goal_col` loop of `move_tile`. -/
def moveTileLoopRight (fuel : Nat) (goal_col : Int) :
    Nat → Puzzle → Tile → Option (Puzzle × Tile)
  | 0, _, _ => none
  | n + 1, p, t =>
    if t.col < goal_col then do
      let p ← move_tile_right fuel p t
      moveTileLoopRight fuel goal_col n p { t with col := t.col + 1 }
    else some (p, t)

/-- The `while tile.row > goal_row` loop of `move_tile`. -/
def moveTileLoopUp (fuel : Nat) (goal_row : Int) :
    Nat → Puzzle → Tile → Option (Puzzle × Tile)
  | 0, _, _ => none
  | n + 1, p, t =>
    if t.row > goal_row then do
      let p ← move_tile_up fuel p t
      moveTileLoopUp fuel goal_row n p { t with row := t.row - 1 }
    else some (p, t)

/-- The `while tile.row < goal_row` loop of `move_tile`. -/
def moveTileLoopDown (fuel : Nat) (goal_row : Int) :
    Nat → Puzzle → Tile → Option (Puzzle × Tile)
  | 0, _, _ => none
  | n + 1, p, t =>
    if t.row < goal_row then do
      let p ← move_tile_down fuel p t
      moveTileLoopDown fuel goal_row n p { t with row := t.row + 1 }
    else some (p, t)

/-- `move_tile`: place `value` at `(goal_row, goal_col)`, sliding it
column-first when solving a row and row-first when solving a column. -/
def move_tile (fuel : Nat) (p : Puzzle) (value : Nat)
    (goal_row goal_col : Int) : Option Puzzle :=
  let mm := matrixMapping p.matrix value
  if mm.1 = goal_row ∧ mm.2 = goal_col then some p
  else
    let t : Tile := ⟨value, mm.1, mm.2, goal_row, goal_col⟩
    if p.solving_row then do
      let (p, t) ← moveTileLoopLeft fuel goal_col fuel p t
      let (p, t) ← moveTileLoopRight fuel goal_col fuel p t
      let (p, t) ← moveTileLoopUp fuel goal_row fuel p t
      let (p, _) ← moveTileLoopDown fuel goal_row fuel p t
      pure p
    else do
      let (p, t) ← moveTileLoopUp fuel goal_row fuel p t
      let (p, t) ← moveTileLoopDown fuel goal_row fuel p t
      let (p, t) ← moveTileLoopLeft fuel goal_col fuel p t
      let (p, _) ← moveTileLoopRight fuel goal_col fuel p t
      pure p

/-- Result of one of the solver's internal loops: fuel ran out, the
Python code executed `return False`, or the loop finished with the
given puzzle state. -/
inductive SR where
  | fuelOut
  | failed (p : Puzzle)
  | ok (p : Puzzle)
deriving DecidableEq, Repr

/-- Bind an `Option Puzzle` (a fuel-bounded helper) into an `SR`
continuation. -/
def SR.bindO (o : Option Puzzle) (k : Puzzle → SR) : SR :=
  match o with
  | none => .fuelOut
  | some p => k p

/-- Did the loop finish normally? -/
def SR.isOk : SR → Bool
  | .ok _ => true
  | _ => false

/-- The inner `while not is_row_equal` loop of
`solve_puzzle_strategically` (row solving, with the `row_iteration`
retry guard). -/
def rowSolveLoop (goal_puzzle : Puzzle) (fuel : Nat) :
    Nat → Nat → Nat → Puzzle → SR
  | 0, _, _, _ => .fuelOut
  | n + 1, row_iteration, target_value, p =>
    if ¬ is_row_equal goal_puzzle p p.row_in_progress then
      if row_iteration > 1 then .failed p
      else
        let gm := goal_puzzle.matrix
        if target_value ≠
            getCell gm p.row_in_progress (p.right_col_progress - 1) then
          SR.bindO (move_tile fuel p target_value
              (matrixMapping gm target_value).1
              (matrixMapping gm target_value).2) fun p =>
            let p := { p with row_progress_col := p.row_progress_col + 1 }
            let target_value := getCell gm p.row_in_progress p.row_progress_col
            rowSolveLoop goal_puzzle fuel n row_iteration target_value p
        else
          let last_value := getCell gm p.row_in_progress p.right_col_progress
          let lv := matrixMapping gm last_value
          if p.solving_row_top_down then
            SR.bindO (move_tile fuel p last_value (lv.1 + 2) lv.2) fun p =>
            SR.bindO (move_tile fuel p target_value lv.1 lv.2) fun p =>
            SR.bindO (move_tile fuel p last_value (lv.1 + 1) lv.2) fun p =>
            SR.bindO (move_blank_to_col fuel p (lv.2 - 1)) fun p =>
            SR.bindO (move_blank_to_row fuel p lv.1) fun p =>
            let p := p.slide_right.slide_down
            let p := { p with row_progress_col := 0 }
            let target_value := getCell gm p.row_in_progress p.row_progress_col
            rowSolveLoop goal_puzzle fuel n (row_iteration + 1) target_value p
          else
            SR.bindO (move_tile fuel p last_value (lv.1 - 2) lv.2) fun p =>
            SR.bindO (move_tile fuel p target_value lv.1 lv.2) fun p =>
            SR.bindO (move_tile fuel p last_value (lv.1 - 1) lv.2) fun p =>
            SR.bindO (move_blank_to_col fuel p (lv.2 - 1)) fun p =>
            SR.bindO (move_blank_to_row fuel p lv.1) fun p =>
            let p := p.slide_right.slide_up
            let p := { p with row_progress_col := 0 }
            let target_value := getCell gm p.row_in_progress p.row_progress_col
            rowSolveLoop goal_puzzle fuel n (row_iteration + 1) target_value p
    else .ok p

/-- The `while more_than_two_unsolved_rows and
more_unsolved_rows_than_cols` loop. -/
def rowPhase (goal_puzzle : Puzzle) (fuel : Nat) : Nat → Puzzle → SR
  | 0, _ => .fuelOut
  | n + 1, p =>
    if more_than_two_unsolved_rows p ∧ more_unsolved_rows_than_cols p then
      let p := { p with solving_row := true }
      if row_finished_and_not_in_goal_row goal_puzzle p then
        let p :=
          if p.solving_row_top_down then
            let p := { p with top_row_progress := p.top_row_progress + 1 }
            { p with row_in_progress := p.top_row_progress }
          else
            let p := { p with bot_row_progress := p.bot_row_progress - 1 }
            { p with row_in_progress := p.bot_row_progress }
        let p := { p with row_progress_col := 0 }
        rowPhase goal_puzzle fuel n p
      else
        let p :=
          if p.solving_row_top_down then
            if p.row_in_progress = goal_puzzle.blank_row then
              { p with solving_row_top_down := false
                       row_in_progress := p.bot_row_progress }
            else { p with row_in_progress := p.top_row_progress }
          else { p with row_in_progress := p.bot_row_progress }
        let target_value :=
          getCell goal_puzzle.matrix p.row_in_progress p.row_progress_col
        match rowSolveLoop goal_puzzle fuel fuel 0 target_value p with
        | .fuelOut => .fuelOut
        | .failed pf => .failed pf
        | .ok p => rowPhase goal_puzzle fuel n p
    else .ok p

/-- The inner `while not is_col_equal` loop (column solving, with the
`col_iteration` retry guard). -/
def colSolveLoop (goal_puzzle : Puzzle) (fuel : Nat) :
    Nat → Nat → Nat → Puzzle → SR
  | 0, _, _, _ => .fuelOut
  | n + 1, col_iteration, target_value, p =>
    if ¬ is_col_equal goal_puzzle p p.col_in_progress then
      if col_iteration > 1 then .failed p
      else
        let gm := goal_puzzle.matrix
        if target_value ≠
            getCell gm (p.bot_row_progress - 1) p.col_in_progress then
          SR.bindO (move_tile fuel p target_value
              (matrixMapping gm target_value).1
              (matrixMapping gm target_value).2) fun p =>
            let p := { p with col_progress_row := p.col_progress_row + 1 }
            let target_value := getCell gm p.col_progress_row p.col_in_progress
            colSolveLoop goal_puzzle fuel n col_iteration target_value p
        else
          let last_value := getCell gm p.bot_row_progress p.col_in_progress
          let lv := matrixMapping gm last_value
          if p.solving_col_left_right then
            SR.bindO (move_tile fuel p last_value lv.1 (lv.2 + 2)) fun p =>
            SR.bindO (move_tile fuel p target_value lv.1 lv.2) fun p =>
            SR.bindO (move_tile fuel p last_value lv.1 (lv.2 + 1)) fun p =>
            SR.bindO (move_blank_to_row fuel p (lv.1 - 1)) fun p =>
            SR.bindO (move_blank_to_col fuel p lv.2) fun p =>
            let p := p.slide_down.slide_right
            let p := { p with col_progress_row := 0 }
            let target_value := getCell gm p.col_progress_row p.col_in_progress
            colSolveLoop goal_puzzle fuel n (col_iteration + 1) target_value p
          else
            SR.bindO (move_tile fuel p last_value lv.1 (lv.2 - 2)) fun p =>
            SR.bindO (move_tile fuel p target_value lv.1 lv.2) fun p =>
            SR.bindO (move_tile fuel p last_value lv.1 (lv.2 - 1)) fun p =>
            SR.bindO (move_blank_to_row fuel p (lv.1 - 1)) fun p =>
            SR.bindO (move_blank_to_col fuel p lv.2) fun p =>
            let p := p.slide_down.slide_left
            let p := { p with col_progress_row := 0 }
            let target_value := getCell gm p.col_progress_row p.col_in_progress
            colSolveLoop goal_puzzle fuel n (col_iteration + 1) target_value p
    else .ok p

/-- The `while more_than_two_unsolved_cols and
more_unsolved_cols_than_rows` loop. -/
def colPhase (goal_puzzle : Puzzle) (fuel : Nat) : Nat → Puzzle → SR
  | 0, _ => .fuelOut
  | n + 1, p =>
    if more_than_two_unsolved_cols p ∧ more_unsolved_cols_than_rows p then
      let p := { p with solving_row := false }
      if col_finished_and_not_in_goal_col goal_puzzle p then
        let p := { p with col_progress_row := 0 }
        let p :=
          if p.solving_col_left_right then
            let p := { p with left_col_progress := p.left_col_progress + 1 }
            { p with col_in_progress := p.left_col_progress }
          else
            let p := { p with right_col_progress := p.right_col_progress - 1 }
            { p with col_in_progress := p.right_col_progress }
        colPhase goal_puzzle fuel n p
      else
        let p :=
          if p.solving_col_left_right then
            if p.col_in_progress = goal_puzzle.blank_col then
              { p with solving_col_left_right := false
                       col_in_progress := p.right_col_progress }
            else { p with col_in_progress := p.left_col_progress }
          else { p with col_in_progress := p.right_col_progress }
        let target_value :=
          getCell goal_puzzle.matrix p.top_row_progress p.col_in_progress
        match colSolveLoop goal_puzzle fuel fuel 0 target_value p with
        | .fuelOut => .fuelOut
        | .failed pf => .failed pf
        | .ok p => colPhase goal_puzzle fuel n p
    else .ok p

/-- The 2×2 close loop: alternate vertical and horizontal slides until
the board equals the goal, giving up past 20 iterations. -/
def closeLoop (goal_puzzle : Puzzle) : Nat → Nat → Bool → Puzzle → SR
  | 0, _, _, _ => .fuelOut
  | n + 1, iterations, slide_vertically, p =>
    if ¬ goal_puzzle.is_equal_to_puzzle p then
      let p :=
        if slide_vertically then
          if p.can_slide_down ∧
              p.blank_row - 1 ≤ goal_puzzle.blank_row - 1 then
            p.slide_down
          else p.slide_up
        else
          if p.can_slide_right ∧
              p.blank_col + 1 ≤ goal_puzzle.blank_col + 1 then
            p.slide_right
          else p.slide_left
      let slide_vertically := ! slide_vertically
      let iterations := iterations + 1
      if iterations > 20 then .failed p
      else closeLoop goal_puzzle n iterations slide_vertically p
    else .ok p

/-- The outer `while not goal_puzzle.is_equal_to_puzzle(puzzle)` loop
of `solve_puzzle_strategically`. -/
def outerLoop (goal_puzzle : Puzzle) (fuel : Nat) : Nat → Puzzle → SR
  | 0, _ => .fuelOut
  | n + 1, p =>
    if ¬ goal_puzzle.is_equal_to_puzzle p then
      match rowPhase goal_puzzle fuel fuel p with
      | .fuelOut => .fuelOut
      | .failed pf => .failed pf
      | .ok p =>
        match colPhase goal_puzzle fuel fuel p with
        | .fuelOut => .fuelOut
        | .failed pf => .failed pf
        | .ok p =>
          if unsolved_puzzle_is_two_by_two p then
            match closeLoop goal_puzzle fuel 0 true p with
            | .fuelOut => .fuelOut
            | .failed pf => .failed pf
            | .ok p => outerLoop goal_puzzle fuel n p
          else outerLoop goal_puzzle fuel n p
    else .ok p

/-- Result of `solve_puzzle_strategically`: the Python function
returns `False` or a dict carrying `coord_moves` (and the mutated
puzzle). -/
inductive StratResult where
  | fuelOut
  | failed (final_puzzle : Puzzle)
  | ok (solution_puzzle : Puzzle) (coord_moves : List (Int × Int))
deriving DecidableEq, Repr

/-- `solve_puzzle_strategically`. -/
def solve_puzzle_strategically (fuel : Nat) (p goal_puzzle : Puzzle) :
    StratResult :=
  if goal_puzzle.is_equal_to_puzzle p then .ok p []
  else
    let p := { p with top_row_progress := 0, left_col_progress := 0
                      bot_row_progress := p.rows - 1
                      right_col_progress := p.cols - 1
                      row_in_progress := 0, col_in_progress := 0
                      row_progress_col := 0, col_progress_row := 0
                      solving_row_top_down := true
                      solving_col_left_right := true }
    match outerLoop goal_puzzle fuel fuel p with
    | .fuelOut => .fuelOut
    | .failed pf => .failed pf
    | .ok p => .ok p p.coord_moves

/-- Outcome of `StrategicSolver.solve_human`: `error` models the
`ValueError` from a board without a blank, `noSolution` the Python
`None`. -/
inductive HumanOutcome where
  | error
  | fuelOut
  | noSolution
  | moves (l : List (Int × Int))
deriving DecidableEq, Repr

/-- `StrategicSolver.solve_human`: build the puzzle and the canonical
goal and run the strategic solver. -/
def solve_human (size : Nat) (fuel : Nat) (initial_board : Matrix) :
    HumanOutcome :=
  match Puzzle.init initial_board, Puzzle.init (goalBoard size) with
  | some puzzle, some goal_puzzle =>
    match solve_puzzle_strategically fuel puzzle goal_puzzle with
    | .fuelOut => .fuelOut
    | .failed _ => .noSolution
    | .ok _ moves => .moves moves
  | _, _ => .error

/-- `PuzzleState.__lt__` of `strategic_solver.py`: `f_cost = h_cost`
(greedy best-first). -/
def ANode.ltGreedy (a b : ANode) : Bool := a.h_cost < b.h_cost

/-- The main loop of `StrategicSolver.solve_bfs` (greedy best-first
search without the `best_g` map). -/
def bfsLoop (size : Nat) (timeHit : Nat → Bool) :
    Nat → List ANode → List Matrix → Nat → AResult
  | 0, _, _, _ => .fuelOut
  | fuel + 1, open_set, closed_set, n =>
    if open_set.isEmpty then .pyNone
    else if timeHit n then .pyNone
    else
      match heappop ANode.ltGreedy open_set with
      | none => .pyNone
      | some (current, opened) =>
        if current.board ∈ closed_set then
          bfsLoop size timeHit fuel opened closed_set (n + 1)
        else if _is_goal size current.board then
          .path (_reconstruct_path current)
        else
          let closed' := current.board :: closed_set
          let open'' := (_get_neighbors size current).foldl
            (fun os nb => if nb.board ∈ closed' then os
              else heappush ANode.ltGreedy os nb) opened
          bfsLoop size timeHit fuel open'' closed' (n + 1)

/-- `StrategicSolver.solve_bfs`. -/
def solve_bfs (size : Nat) (timeHit : Nat → Bool) (fuel : Nat)
    (initial_board : Matrix) (initial_empty_pos : Int × Int) : AResult :=
  let h_cost := manhattan_distance initial_board size
  let initial_state : ANode := .root initial_board initial_empty_pos 0 h_cost
  let open_set := heappush ANode.ltGreedy [] initial_state
  bfsLoop size timeHit fuel open_set [] 0

/-! ## Spec-side replay of a move list

The output contract (spec section 6): "applying them in order -- each
move swaps the blank with the tile at the given coordinate, which must
be adjacent to the blank's current position".  `replay` applies a move
list under exactly that semantics, failing if a move is out of bounds
or not adjacent to the blank at its application time. -/

/-- Apply one move of the output contract. -/
def applyMove (rows cols : Int) (m : Matrix) (blank mv : Int × Int) :
    Option (Matrix × (Int × Int)) :=
  if 0 ≤ mv.1 ∧ mv.1 < rows ∧ 0 ≤ mv.2 ∧ mv.2 < cols ∧ adjacent mv blank then
    some (swapCells m blank.1 blank.2 mv.1 mv.2, mv)
  else none

/-- Apply a move list in order from a board and blank position. -/
def replay (rows cols : Int) :
    Matrix → (Int × Int) → List (Int × Int) → Option (Matrix × (Int × Int))
  | m, blank, [] => some (m, blank)
  | m, blank, mv :: rest =>
    match applyMove rows cols m blank mv with
    | none => none
    | some (m', blank') => replay rows cols m' blank' rest

/-- Invariant of a strategic solve relative to the initial board
`m₀` and initial blank `b₀`: the dimensions are unchanged, the blank
is on the board, and replaying the recorded moves from the initial
board reproduces the current matrix and blank. -/
def StratInv (rows cols : Int) (m₀ : Matrix) (b₀ : Int × Int)
    (p : Puzzle) : Prop :=
  p.rows = rows ∧ p.cols = cols ∧
  0 ≤ p.blank_row ∧ p.blank_row < rows ∧
  0 ≤ p.blank_col ∧ p.blank_col < cols ∧
  replay rows cols m₀ b₀ p.coord_moves =
    some (p.matrix, (p.blank_row, p.blank_col))

/-- Validity of a search node relative to the initial board and blank:
replaying its reconstructed path reproduces its board and blank, the
board is square of the right size, and the blank cell holds 0. -/
def ValidNode (size : Nat) (m₀ : Matrix) (p₀ : Int × Int) (n : ANode) :
    Prop :=
  replay size size m₀ p₀ (_reconstruct_path n) = some (n.board, n.empty_pos) ∧
  WFMat size size n.board ∧
  inBounds (size : Int) n.empty_pos ∧
  getCell n.board n.empty_pos.1 n.empty_pos.2 = 0

/-! ## Cell access lemmas -/

theorem pyIdx_of_nonneg {len : Nat} {i : Int} (h0 : 0 ≤ i) :
    pyIdx len i = i := by
  unfold pyIdx
  rw [if_neg (by omega)]

theorem inRange_of_nonneg {len : Nat} {i : Int} (h0 : 0 ≤ i)
    (h1 : i < (len : Int)) : inRange len i := by
  unfold inRange
  rw [pyIdx_of_nonneg h0]
  exact ⟨h0, h1⟩

theorem pyGet_eq_getD (d : α) (l : List α) {i : Int} (h0 : 0 ≤ i)
    (h1 : i < (l.length : Int)) : pyGet d l i = l.getD i.toNat d := by
  unfold pyGet
  rw [if_pos (inRange_of_nonneg h0 h1), pyIdx_of_nonneg h0]

theorem pySet_eq_set (l : List α) {i : Int} (v : α) (h0 : 0 ≤ i)
    (h1 : i < (l.length : Int)) : pySet l i v = l.set i.toNat v := by
  unfold pySet
  rw [if_pos (inRange_of_nonneg h0 h1), pyIdx_of_nonneg h0]

theorem length_pySet (l : List α) (i : Int) (v : α) :
    (pySet l i v).length = l.length := by
  unfold pySet
  split <;> simp

theorem pySet_mem (l : List α) (i : Int) (v : α) :
    ∀ x ∈ pySet l i v, x ∈ l ∨ x = v := by
  intro x hx
  unfold pySet at hx
  split at hx
  · exact List.mem_or_eq_of_mem_set hx
  · exact Or.inl hx

theorem pyGet_mem_or_default (d : α) (l : List α) (i : Int) :
    pyGet d l i ∈ l ∨ pyGet d l i = d := by
  unfold pyGet
  split
  · rename_i h
    left
    obtain ⟨h0, h1⟩ := h
    rw [List.getD_eq_getElem?_getD, List.getElem?_eq_getElem (by omega)]
    exact List.getElem_mem _

  · right; rfl

theorem setCell_of_not_inRange {m : Matrix} {r : Int}
    (hr : ¬ inRange m.length r) (c : Int) (v : Nat) :
    setCell m r c v = m := by
  unfold setCell pySet
  rw [if_neg hr]

theorem WFMat_setCell {rows cols : Nat} {m : Matrix} (h : WFMat rows cols m)
    (r c : Int) (v : Nat) : WFMat rows cols (setCell m r c v) := by
  obtain ⟨hlen, hrows⟩ := h
  by_cases hr : inRange m.length r
  · refine ⟨?_, ?_⟩
    · unfold setCell
      rw [length_pySet, hlen]
    · intro row hrow
      unfold setCell at hrow
      rcases pySet_mem _ _ _ _ hrow with h' | h'
      · exact hrows _ h'
      · subst h'
        rw [length_pySet]
        unfold pyGet
        rw [if_pos hr]
        obtain ⟨h0, h1⟩ := hr
        refine hrows _ ?_
        rw [List.getD_eq_getElem?_getD, List.getElem?_eq_getElem (by omega)]
        exact List.getElem_mem _
  · rw [setCell_of_not_inRange hr]
    exact ⟨hlen, hrows⟩

theorem pyGet_row {rows cols : Nat} {m : Matrix} (hwf : WFMat rows cols m)
    {r : Int} (h0 : 0 ≤ r) (h1 : r < (rows : Int)) :
    pyGet [] m r = m.getD r.toNat [] ∧ (pyGet [] m r).length = cols := by
  obtain ⟨hlen, hrows⟩ := hwf
  have hget : pyGet [] m r = m.getD r.toNat [] :=
    pyGet_eq_getD [] m h0 (by omega)
  refine ⟨hget, ?_⟩
  rw [hget, List.getD_eq_getElem?_getD, List.getElem?_eq_getElem (by omega)]
  exact hrows _ (List.getElem_mem _)

theorem getCell_eq {rows cols : Nat} {m : Matrix} (hwf : WFMat rows cols m)
    {r c : Int} (hr0 : 0 ≤ r) (hr1 : r < (rows : Int))
    (hc0 : 0 ≤ c) (hc1 : c < (cols : Int)) :
    getCell m r c = (m.getD r.toNat []).getD c.toNat 0 := by
  obtain ⟨hget, hlen⟩ := pyGet_row hwf hr0 hr1
  unfold getCell
  rw [pyGet_eq_getD 0 _ hc0 (by rw [hlen]; exact hc1), hget]

theorem setCell_eq {rows cols : Nat} {m : Matrix} (hwf : WFMat rows cols m)
    {r c : Int} (v : Nat) (hr0 : 0 ≤ r) (hr1 : r < (rows : Int))
    (hc0 : 0 ≤ c) (hc1 : c < (cols : Int)) :
    setCell m r c v = m.set r.toNat ((m.getD r.toNat []).set c.toNat v) := by
  obtain ⟨hget, hlen⟩ := pyGet_row hwf hr0 hr1
  obtain ⟨hmlen, hrows⟩ := hwf
  unfold setCell
  rw [pySet_eq_set _ v hc0 (by rw [hlen]; exact hc1), hget,
    pySet_eq_set m _ hr0 (by rw [hmlen]; exact hr1)]

theorem getCell_setCell {rows cols : Nat} {m : Matrix} (hwf : WFMat rows cols m)
    {r c r' c' : Int} (v : Nat) (hr0 : 0 ≤ r) (hr1 : r < (rows : Int))
    (hc0 : 0 ≤ c) (hc1 : c < (cols : Int))
    (hr0' : 0 ≤ r') (hr1' : r' < (rows : Int))
    (hc0' : 0 ≤ c') (hc1' : c' < (cols : Int)) :
    getCell (setCell m r c v) r' c' =
      if r' = r ∧ c' = c then v else getCell m r' c' := by
  have hwf' := WFMat_setCell hwf r c v
  rw [getCell_eq hwf' hr0' hr1' hc0' hc1', getCell_eq hwf hr0' hr1' hc0' hc1',
    setCell_eq hwf v hr0 hr1 hc0 hc1]
  obtain ⟨hget, hrowlen⟩ := pyGet_row hwf hr0 hr1
  rw [hget] at hrowlen
  obtain ⟨hmlen, hrows⟩ := hwf
  by_cases hrr : r' = r
  · subst hrr
    rw [List.getD_eq_getElem?_getD (m.set _ _),
      List.getElem?_set_self (by omega), Option.getD_some]
    by_cases hcc : c' = c
    · subst hcc
      rw [if_pos ⟨rfl, rfl⟩, List.getD_eq_getElem?_getD,
        List.getElem?_set_self (by omega), Option.getD_some]
    · rw [if_neg (fun h => hcc h.2), List.getD_eq_getElem?_getD,
        List.getElem?_set_ne (show c.toNat ≠ c'.toNat by omega),
        ← List.getD_eq_getElem?_getD]
  · rw [if_neg (fun h => hrr h.1), List.getD_eq_getElem?_getD (m.set _ _),
      List.getElem?_set_ne (show r.toNat ≠ r'.toNat by omega),
      ← List.getD_eq_getElem?_getD]

/-! ## `get_possible_moves` and `move` -/

theorem mem_get_possible_moves (m : PuzzleModel) (p : Int × Int) :
    p ∈ get_possible_moves m ↔ inBounds m.size p ∧ adjacent p m.empty_pos := by
  obtain ⟨pr, pc⟩ := p
  simp only [get_possible_moves, directions, List.mem_filterMap, List.mem_cons,
    List.mem_singleton, List.not_mem_nil, or_false,
    Option.ite_none_right_eq_some, Option.some.injEq, Prod.mk.injEq,
    inBounds, adjacent]
  constructor
  · rintro ⟨⟨dr, dc⟩, hd, ⟨h0, h1, h2, h3⟩, hr, hc⟩
    subst hr hc
    rcases hd with h | h | h | h <;>
      (obtain ⟨e1, e2⟩ := Prod.mk.injEq .. ▸ h; refine ⟨⟨h0, h1, h2, h3⟩, ?_⟩) <;>
      omega
  · rintro ⟨⟨h0, h1, h2, h3⟩, hadj⟩
    have hcases : (pr = m.empty_pos.1 - 1 ∧ pc = m.empty_pos.2) ∨
        (pr = m.empty_pos.1 + 1 ∧ pc = m.empty_pos.2) ∨
        (pr = m.empty_pos.1 ∧ pc = m.empty_pos.2 - 1) ∨
        (pr = m.empty_pos.1 ∧ pc = m.empty_pos.2 + 1) := by omega
    rcases hcases with ⟨e1, e2⟩ | ⟨e1, e2⟩ | ⟨e1, e2⟩ | ⟨e1, e2⟩
    · exact ⟨(-1, 0), by tauto, ⟨by omega, by omega, by omega, by omega⟩,
        by omega, by omega⟩
    · exact ⟨(1, 0), by tauto, ⟨by omega, by omega, by omega, by omega⟩,
        by omega, by omega⟩
    · exact ⟨(0, -1), by tauto, ⟨by omega, by omega, by omega, by omega⟩,
        by omega, by omega⟩
    · exact ⟨(0, 1), by tauto, ⟨by omega, by omega, by omega, by omega⟩,
        by omega, by omega⟩

theorem WFMat_of_WFModel {m : PuzzleModel} (hwf : WFModel m) :
    WFMat m.size.toNat m.size.toNat m.board :=
  ⟨hwf.2.1, hwf.2.2.1⟩

/-- C10: `PuzzleModel.move p` returns `False` and leaves the board,
`empty_pos` and `move_count` unchanged whenever `p` is not an in-bounds
cell orthogonally adjacent to `empty_pos`; when it is such a cell, it
returns `True`, swaps the tile at `p` with the blank, sets `empty_pos`
to `p`, increments `move_count` by exactly one, and leaves every other
cell unchanged. -/
theorem move_spec (m : PuzzleModel) (p : Int × Int) (hwf : WFModel m)
    (hblank : getCell m.board m.empty_pos.1 m.empty_pos.2 = 0) :
    (¬ (inBounds m.size p ∧ adjacent p m.empty_pos) →
      m.move p = (false, m)) ∧
    ((inBounds m.size p ∧ adjacent p m.empty_pos) →
      (m.move p).1 = true ∧
      (m.move p).2.empty_pos = p ∧
      (m.move p).2.move_count = m.move_count + 1 ∧
      (m.move p).2.size = m.size ∧
      getCell (m.move p).2.board p.1 p.2 =
        getCell m.board m.empty_pos.1 m.empty_pos.2 ∧
      getCell (m.move p).2.board m.empty_pos.1 m.empty_pos.2 =
        getCell m.board p.1 p.2 ∧
      ∀ q : Int × Int, inBounds m.size q → q ≠ p → q ≠ m.empty_pos →
        getCell (m.move p).2.board q.1 q.2 = getCell m.board q.1 q.2) := by
  have hmat := WFMat_of_WFModel hwf
  obtain ⟨hpos, hlen, hrows, he⟩ := hwf
  have hsz : ((m.size.toNat : Nat) : Int) = m.size := by omega
  constructor
  · intro h
    unfold PuzzleModel.move
    rw [if_pos]
    intro hmem
    exact h ((mem_get_possible_moves m p).mp hmem)
  · intro h
    have hmem : p ∈ get_possible_moves m := (mem_get_possible_moves m p).mpr h
    obtain ⟨⟨hp0, hp1, hp2, hp3⟩, hadj⟩ := h
    obtain ⟨he0, he1, he2, he3⟩ := he
    have hne : ¬ (p.1 = m.empty_pos.1 ∧ p.2 = m.empty_pos.2) := by
      unfold adjacent at hadj
      omega
    unfold PuzzleModel.move
    rw [if_neg (by simpa using hmem)]
    have hmat' := WFMat_setCell hmat m.empty_pos.1 m.empty_pos.2
      (getCell m.board p.1 p.2)
    refine ⟨rfl, rfl, rfl, rfl, ?_, ?_, ?_⟩
    · show getCell (setCell _ p.1 p.2 0) p.1 p.2 = _
      rw [getCell_setCell hmat' 0 hp0 (by omega) hp2 (by omega)
        hp0 (by omega) hp2 (by omega), if_pos ⟨rfl, rfl⟩, hblank]
    · show getCell (setCell _ p.1 p.2 0) m.empty_pos.1 m.empty_pos.2 = _
      rw [getCell_setCell hmat' 0 hp0 (by omega) hp2 (by omega)
        he0 (by omega) he2 (by omega),
        if_neg (by tauto),
        getCell_setCell hmat _ he0 (by omega) he2 (by omega)
          he0 (by omega) he2 (by omega), if_pos ⟨rfl, rfl⟩]
    · rintro ⟨qr, qc⟩ ⟨hq0, hq1, hq2, hq3⟩ hqp hqe
      have hqp' : ¬ (qr = p.1 ∧ qc = p.2) := by
        intro hh
        exact hqp (Prod.ext hh.1 hh.2)
      have hqe' : ¬ (qr = m.empty_pos.1 ∧ qc = m.empty_pos.2) := by
        intro hh
        exact hqe (Prod.ext hh.1 hh.2)
      show getCell (setCell _ p.1 p.2 0) qr qc = _
      rw [getCell_setCell hmat' 0 hp0 (by omega) hp2 (by omega)
          hq0 (by omega) hq2 (by omega), if_neg hqp',
        getCell_setCell hmat _ he0 (by omega) he2 (by omega)
          hq0 (by omega) hq2 (by omega), if_neg hqe']

/-- Witness for `move_spec` at a concrete model: the 2×2 board
`[[1, 2], [3, 0]]` with the blank at `(1, 1)`, moving the tile at
`(0, 1)`. -/
theorem move_spec_witness :
    (WFModel ⟨2, [[1, 2], [3, 0]], (1, 1), 0⟩ ∧
      getCell [[1, 2], [3, 0]] 1 1 = 0) ∧
    ((¬ (inBounds 2 ((0 : Int), (1 : Int)) ∧ adjacent (0, 1) (1, 1)) →
      PuzzleModel.move ⟨2, [[1, 2], [3, 0]], (1, 1), 0⟩ (0, 1) =
        (false, ⟨2, [[1, 2], [3, 0]], (1, 1), 0⟩))) := by
  refine ⟨⟨?_, ?_⟩, ?_⟩
  · exact ⟨by norm_num, by decide, by decide, by decide⟩
  · decide
  · exact (move_spec ⟨2, [[1, 2], [3, 0]], (1, 1), 0⟩ (0, 1)
      ⟨by norm_num, by decide, by decide, by decide⟩ (by decide)).1

/-! ## Solvability oracle -/

theorem countInversionPairs_eq_specInversions (l : List Nat) :
    countInversionPairs l = specInversions l := by
  induction l with
  | nil => rfl
  | cons x xs ih =>
    unfold countInversionPairs specInversions
    rw [List.sublistsLen_succ_cons, List.filter_append, List.length_append,
      List.sublistsLen_one, List.map_map, ← List.countP_eq_length_filter,
      ← List.countP_eq_length_filter, List.countP_map,
      (List.reverse_perm xs).countP_eq]
    have hpt : List.countP (isDescPair ∘ (List.cons x ∘ fun y => [y])) xs =
        List.countP (fun y => decide (y < x)) xs :=
      List.countP_congr (fun a _ => Iff.rfl)
    have hspec : specInversions xs =
        List.countP isDescPair (List.sublistsLen 2 xs) := by
      unfold specInversions
      rw [← List.countP_eq_length_filter]
    rw [hpt, show (1 + 1 : Nat) = 2 from rfl, ← hspec, ih]
    omega

/-- C3: `PuzzleModel.is_solvable` returns true iff: for odd `N` the
number of inversions (pairs of non-blank tiles out of ascending order
in row-major reading) is even; for even `N`,
`(inversions + (N − blank_row)) mod 2 = 1` with `blank_row` the
blank's 0-indexed row from the top. -/
theorem is_solvable_spec (m : PuzzleModel) (hwf : WFModel m)
    (hblank : ∀ p : Int × Int, inBounds m.size p →
      (getCell m.board p.1 p.2 = 0 ↔ p = m.empty_pos)) :
    is_solvable m = true ↔
      (if m.size % 2 = 1 then specInversions (flatBoard m) % 2 = 0
       else ((specInversions (flatBoard m) : Int) +
         (m.size - m.empty_pos.1)) % 2 = 1) := by
  unfold is_solvable _count_inversions
  rw [countInversionPairs_eq_specInversions]
  by_cases hodd : m.size % 2 = 1
  · rw [if_pos (by simpa using hodd), if_pos hodd]
    simp
  · rw [if_neg (by simpa using hodd), if_neg hodd]
    simp

/-- Witness for `is_solvable_spec`: the spec's concrete 3×3 scenario
`[[1, 2, 3], [4, 0, 5], [7, 8, 6]]`, blank at `(1, 1)`: 2 inversions,
odd size, solvable. -/
theorem is_solvable_spec_witness :
    (WFModel ⟨3, [[1, 2, 3], [4, 0, 5], [7, 8, 6]], (1, 1), 0⟩ ∧
      is_solvable ⟨3, [[1, 2, 3], [4, 0, 5], [7, 8, 6]], (1, 1), 0⟩ = true) ∧
    specInversions (flatBoard ⟨3, [[1, 2, 3], [4, 0, 5], [7, 8, 6]], (1, 1), 0⟩)
      % 2 = 0 := by
  have hwf : WFModel ⟨3, [[1, 2, 3], [4, 0, 5], [7, 8, 6]], (1, 1), 0⟩ :=
    ⟨by norm_num, by decide, by decide, by decide⟩
  have hblank : ∀ p : Int × Int,
      inBounds (3 : Int) p →
      (getCell [[1, 2, 3], [4, 0, 5], [7, 8, 6]] p.1 p.2 = 0 ↔
        p = ((1 : Int), (1 : Int))) := by
    rintro ⟨pr, pc⟩ ⟨h0, h1, h2, h3⟩
    have hr : pr = 0 ∨ pr = 1 ∨ pr = 2 := by omega
    have hc : pc = 0 ∨ pc = 1 ∨ pc = 2 := by omega
    rcases hr with rfl | rfl | rfl <;> rcases hc with rfl | rfl | rfl <;> decide
  have h := (is_solvable_spec ⟨3, [[1, 2, 3], [4, 0, 5], [7, 8, 6]], (1, 1), 0⟩
    hwf hblank).mpr
  refine ⟨⟨hwf, h ?_⟩, by decide⟩
  rw [if_pos (by decide)]
  decide

/-! ## Heap membership lemmas -/

theorem getD_mem_or_eq (l : List α) (i : Nat) (d : α) :
    l.getD i d ∈ l ∨ l.getD i d = d := by
  rw [List.getD_eq_getElem?_getD]
  cases h : l[i]? with
  | none => right; rfl
  | some a =>
    left
    exact List.getElem?_mem h

theorem siftdownAux_subset (lt : α → α → Bool) (startpos : Nat) (newitem : α) :
    ∀ (fuel pos : Nat) (heap : List α),
      ∀ y ∈ siftdownAux lt startpos newitem fuel pos heap,
        y ∈ heap ∨ y = newitem := by
  intro fuel
  induction fuel with
  | zero =>
    intro pos heap y hy
    exact List.mem_or_eq_of_mem_set hy
  | succ fuel ih =>
    intro pos heap y hy
    unfold siftdownAux at hy
    dsimp only at hy
    split at hy
    · split at hy
      · rcases ih _ _ y hy with h | h
        · rcases List.mem_or_eq_of_mem_set h with h' | h'
          · exact Or.inl h'
          · subst h'
            rcases getD_mem_or_eq heap ((pos - 1) / 2) newitem with h'' | h''
            · exact Or.inl h''
            · exact Or.inr h''
        · exact Or.inr h
      · exact List.mem_or_eq_of_mem_set hy
    · exact List.mem_or_eq_of_mem_set hy

theorem siftupAux_subset (lt : α → α → Bool) (endpos : Nat) (newitem : α)
    (startpos : Nat) : ∀ (fuel pos : Nat) (heap : List α),
      ∀ y ∈ siftupAux lt endpos newitem startpos fuel pos heap,
        y ∈ heap ∨ y = newitem := by
  intro fuel
  induction fuel with
  | zero =>
    intro pos heap y hy
    rcases siftdownAux_subset lt startpos newitem _ _ _ y hy with h | h
    · rcases List.mem_or_eq_of_mem_set h with h' | h'
      · exact Or.inl h'
      · exact Or.inr h'
    · exact Or.inr h
  | succ fuel ih =>
    intro pos heap y hy
    unfold siftupAux at hy
    dsimp only at hy
    split at hy
    · rcases ih _ _ y hy with h | h
      · rcases List.mem_or_eq_of_mem_set h with h' | h'
        · exact Or.inl h'
        · rcases getD_mem_or_eq heap _ newitem with h'' | h''
          · exact Or.inl (h' ▸ h'')
          · exact Or.inr (h' ▸ h'')
      · exact Or.inr h
    · rcases siftdownAux_subset lt startpos newitem _ _ _ y hy with h | h
      · rcases List.mem_or_eq_of_mem_set h with h' | h'
        · exact Or.inl h'
        · exact Or.inr h'
      · exact Or.inr h

theorem heappush_subset (lt : α → α → Bool) (heap : List α) (item : α) :
    ∀ y ∈ heappush lt heap item, y ∈ heap ∨ y = item := by
  intro y hy
  unfold heappush at hy
  rcases siftdownAux_subset lt 0 item _ _ _ y hy with h | h
  · rcases List.mem_append.mp h with h' | h'
    · exact Or.inl h'
    · exact Or.inr (List.mem_singleton.mp h')
  · exact Or.inr h

theorem heappop_mem (lt : α → α → Bool) (heap : List α) (x : α)
    (rest : List α) (h : heappop lt heap = some (x, rest)) :
    x ∈ heap ∧ ∀ y ∈ rest, y ∈ heap := by
  unfold heappop at h
  cases hl : heap.getLast? with
  | none =>
    rw [hl] at h
    simp at h
  | some lastelt =>
    rw [hl] at h
    have hlast : lastelt ∈ heap := List.mem_of_mem_getLast? hl
    have hdrop : ∀ y ∈ heap.dropLast, y ∈ heap :=
      fun y hy => (List.dropLast_sublist heap).subset hy
    dsimp only at h
    split at h
    · simp only [Option.some.injEq, Prod.mk.injEq] at h
      obtain ⟨hx, hr⟩ := h
      subst hx hr
      exact ⟨hlast, hdrop⟩
    · rename_i hne
      simp only [Option.some.injEq, Prod.mk.injEq] at h
      obtain ⟨hx, hr⟩ := h
      subst hx hr
      constructor
      · cases hdl : heap.dropLast with
        | nil => rw [hdl] at hne; simp at hne
        | cons a t =>
          exact hdrop a (by rw [hdl]; exact List.mem_cons_self a t)
      · intro y hy
        unfold _siftup at hy
        rcases siftupAux_subset lt _ lastelt 0 _ _ _ y hy with h' | h'
        · rcases List.mem_or_eq_of_mem_set h' with h'' | h''
          · exact hdrop _ h''
          · exact h'' ▸ hlast
        · exact h' ▸ hlast

/-! ## Goal-board lemmas -/

theorem heappush_nil (lt : α → α → Bool) (x : α) : heappush lt [] x = [x] := rfl

theorem goalBoard_WF (size : Nat) : WFMat size size (goalBoard size) := by
  constructor
  · simp [goalBoard]
  · intro row hrow
    unfold goalBoard at hrow
    obtain ⟨i, hi, rfl⟩ := List.mem_map.mp hrow
    simp

theorem getD_eq_getElem_of_lt (l : List α) (d : α) {n : Nat}
    (h : n < l.length) : l.getD n d = l[n] := by
  rw [List.getD_eq_getElem?_getD, List.getElem?_eq_getElem h, Option.getD_some]

theorem getCell_nat_eq {rows cols : Nat} {m : Matrix} (hwf : WFMat rows cols m)
    {i j : Nat} (hi : i < rows) (hj : j < cols) :
    getCell m (i : Int) (j : Int) =
      (m.get ⟨i, by rw [hwf.1]; exact hi⟩).get ⟨j, by
        rw [hwf.2 _ (List.get_mem _ _ _)]; exact hj⟩ := by
  rw [getCell_eq hwf (by omega) (by omega) (by omega) (by omega)]
  have h1 : ((i : Int)).toNat = i := by omega
  have h2 : ((j : Int)).toNat = j := by omega
  rw [h1, h2, getD_eq_getElem_of_lt m [] (by rw [hwf.1]; exact hi),
    getD_eq_getElem_of_lt _ 0 (by rw [hwf.2 _ (List.getElem_mem _)]; exact hj)]
  simp

theorem getCell_goalBoard {size i j : Nat} (hi : i < size) (hj : j < size) :
    getCell (goalBoard size) (i : Int) (j : Int) =
      if i = size - 1 ∧ j = size - 1 then 0 else i * size + j + 1 := by
  rw [getCell_nat_eq (goalBoard_WF size) hi hj]
  simp [goalBoard]

theorem matrix_ext {rows cols : Nat} {m m' : Matrix}
    (h1 : WFMat rows cols m) (h2 : WFMat rows cols m')
    (h : ∀ i < rows, ∀ j < cols,
      getCell m (i : Int) (j : Int) = getCell m' (i : Int) (j : Int)) :
    m = m' := by
  apply List.ext_getElem
  · rw [h1.1, h2.1]
  · intro i hi hi'
    apply List.ext_getElem
    · rw [h1.2 _ (List.getElem_mem _), h2.2 _ (List.getElem_mem _)]
    · intro j hj hj'
      have hii : i < rows := by rw [← h1.1]; exact hi
      have hjj : j < cols := by
        rw [← h1.2 _ (List.getElem_mem _)]; exact hj
      have := h i hii j hjj
      rw [getCell_nat_eq h1 hii hjj, getCell_nat_eq h2 hii hjj] at this
      exact this

theorem _is_goal_goalBoard (size : Nat) :
    _is_goal size (goalBoard size) = true := by
  unfold _is_goal
  rw [decide_eq_true_eq]
  intro i hi j hj
  rw [getCell_goalBoard hi hj]
  constructor
  · intro hlast
    rw [if_pos hlast]
  · intro hlast
    rw [if_neg hlast]

theorem _is_goal_eq_goalBoard {size : Nat} {b : Matrix}
    (hwf : WFMat size size b) (h : _is_goal size b = true) :
    b = goalBoard size := by
  unfold _is_goal at h
  rw [decide_eq_true_eq] at h
  apply matrix_ext hwf (goalBoard_WF size)
  intro i hi j hj
  rw [getCell_goalBoard hi hj]
  obtain ⟨hl, hnl⟩ := h i hi j hj
  by_cases hlast : i = size - 1 ∧ j = size - 1
  · rw [if_pos hlast, hl hlast]
  · rw [if_neg hlast, hnl hlast]

/-! ## Claim C8: tie-breaking in the priority queue -/

/-- C8 counterexample: four `PuzzleState`s with equal `f_cost`, pushed
into the solver's priority queue in the order 1, 2, 3, 4.  The first
pop returns state 1, but the second pop returns state 3 while state 2,
inserted earlier with the same `f_cost`, is still in the queue: ties
are not broken by insertion order. -/
theorem astar_tie_break_counterexample :
    (ANode.root [[1]] (0, 0) 0 0).f_cost = (ANode.root [[2]] (0, 0) 0 0).f_cost ∧
    (ANode.root [[2]] (0, 0) 0 0).f_cost = (ANode.root [[3]] (0, 0) 0 0).f_cost ∧
    (ANode.root [[3]] (0, 0) 0 0).f_cost = (ANode.root [[4]] (0, 0) 0 0).f_cost ∧
    ((heappop ANode.lt
        ([ANode.root [[1]] (0, 0) 0 0, ANode.root [[2]] (0, 0) 0 0,
          ANode.root [[3]] (0, 0) 0 0, ANode.root [[4]] (0, 0) 0 0].foldl
          (heappush ANode.lt) [])).map (fun x => x.1.board) = some [[1]]) ∧
    ((heappop ANode.lt
        ([ANode.root [[1]] (0, 0) 0 0, ANode.root [[2]] (0, 0) 0 0,
          ANode.root [[3]] (0, 0) 0 0, ANode.root [[4]] (0, 0) 0 0].foldl
          (heappush ANode.lt) [])).bind
        (fun x => heappop ANode.lt x.2)).map
          (fun y => (y.1.board, y.2.map ANode.board)) =
      some ([[3]], [[[2]], [[4]]]) := by
  exact ⟨rfl, rfl, rfl, rfl, rfl⟩

/-- C8 amended: a pop of the solver's priority queue always returns
one of the queued entries and keeps only queued entries (so one of the
enqueued optimal candidates is returned), but among entries of equal
`f_cost` the order is the binary heap's internal order, not insertion
order. -/
theorem astar_heappop_queue_entry (heap : List ANode) (x : ANode)
    (rest : List ANode) (h : heappop ANode.lt heap = some (x, rest)) :
    x ∈ heap ∧ ∀ y ∈ rest, y ∈ heap :=
  heappop_mem ANode.lt heap x rest h

/-- Witness for `astar_heappop_queue_entry` on a concrete two-element
queue. -/
theorem astar_heappop_queue_entry_witness :
    ANode.root [[1]] (0, 0) 0 0 ∈
      [ANode.root [[1]] (0, 0) 0 0, ANode.root [[2]] (0, 0) 0 1] ∧
    ∀ y ∈ [ANode.root [[2]] (0, 0) 0 1],
      y ∈ [ANode.root [[1]] (0, 0) 0 0, ANode.root [[2]] (0, 0) 0 1] :=
  astar_heappop_queue_entry
    [ANode.root [[1]] (0, 0) 0 0, ANode.root [[2]] (0, 0) 0 1]
    (ANode.root [[1]] (0, 0) 0 0) [ANode.root [[2]] (0, 0) 0 1] (by decide)

/-! ## Claim C5: failure signalling of `AStarSolver.solve` -/

/-- C5 counterexample: on the same unsolvable 2×2 board, a run whose
time budget is exceeded at once and a run that exhausts the whole open
set return the very same value (Python `None`), so the caller cannot
tell the two failure outcomes apart. -/
theorem astar_failures_indistinguishable :
    AStarSolver.solve 2 (fun _ => true) 200 [[2, 1], [3, 0]] (1, 1) =
      AStarSolver.solve 2 (fun _ => false) 200 [[2, 1], [3, 0]] (1, 1) ∧
    AStarSolver.solve 2 (fun _ => false) 200 [[2, 1], [3, 0]] (1, 1) =
      AResult.pyNone := by
  exact ⟨rfl, rfl⟩

/-- C5 amended: both failure outcomes of `AStarSolver.solve` are
reported as the same value `None`: a run whose deadline test fires
immediately returns `None`, and a run that exhausts the open set (here
on a concrete unsolvable board) returns the same `None`. -/
theorem astar_failure_value (size : Nat) (fuel : Nat) (b : Matrix)
    (pos : Int × Int) (hfuel : 1 ≤ fuel) :
    AStarSolver.solve size (fun _ => true) fuel b pos = AResult.pyNone ∧
    AStarSolver.solve 2 (fun _ => false) 200 [[2, 1], [3, 0]] (1, 1) =
      AResult.pyNone := by
  obtain ⟨k, rfl⟩ : ∃ k, fuel = k + 1 := ⟨fuel - 1, by omega⟩
  exact ⟨rfl, rfl⟩

/-- Witness for `astar_failure_value` at concrete inputs. -/
theorem astar_failure_value_witness :
    AStarSolver.solve 3 (fun _ => true) 7 [[1, 2, 3], [4, 0, 5], [7, 8, 6]]
      (1, 1) = AResult.pyNone ∧
    AStarSolver.solve 2 (fun _ => false) 200 [[2, 1], [3, 0]] (1, 1) =
      AResult.pyNone :=
  astar_failure_value 3 7 [[1, 2, 3], [4, 0, 5], [7, 8, 6]] (1, 1)
    (by norm_num)

/-! ## The Priority Search Solver on an already-solved board -/

theorem astar_solve_on_goal (size : Nat) (timeHit : Nat → Bool) (fuel : Nat)
    (pos : Int × Int) (hfuel : 1 ≤ fuel) (ht : timeHit 0 = false) :
    AStarSolver.solve size timeHit fuel (goalBoard size) pos =
      AResult.path [] := by
  obtain ⟨k, rfl⟩ : ∃ k, fuel = k + 1 := ⟨fuel - 1, by omega⟩
  unfold AStarSolver.solve
  dsimp only
  rw [heappush_nil]
  unfold solveLoop
  rw [if_neg (by simp), if_neg (by rw [ht]; simp)]
  have hpop : heappop ANode.lt
      [ANode.root (goalBoard size) pos 0 (manhattan_distance (goalBoard size) size)] =
      some (ANode.root (goalBoard size) pos 0
        (manhattan_distance (goalBoard size) size), []) := rfl
  rw [hpop]
  dsimp only
  rw [if_neg (by simp [ANode.board]), if_pos]
  · rfl
  · show _is_goal size (ANode.root (goalBoard size) pos 0 _).board = true
    rw [show (ANode.root (goalBoard size) pos 0
      (manhattan_distance (goalBoard size) size)).board = goalBoard size from rfl]
    exact _is_goal_goalBoard size

/-! ## Claims C6 and C7: loop guards of the layer-reduction solver -/

theorem slide_up_len (p : Puzzle) :
    p.slide_up.coord_moves.length ≤ p.coord_moves.length + 1 := by
  unfold Puzzle.slide_up
  split <;> simp

theorem slide_down_len (p : Puzzle) :
    p.slide_down.coord_moves.length ≤ p.coord_moves.length + 1 := by
  unfold Puzzle.slide_down
  split <;> simp

theorem slide_left_len (p : Puzzle) :
    p.slide_left.coord_moves.length ≤ p.coord_moves.length + 1 := by
  unfold Puzzle.slide_left
  split <;> simp

theorem slide_right_len (p : Puzzle) :
    p.slide_right.coord_moves.length ≤ p.coord_moves.length + 1 := by
  unfold Puzzle.slide_right
  split <;> simp

/-- C6 counterexample: a row-solving state (3×3 board
`[[2,3,6],[1,4,8],[7,5,0]]`, solving row 0) in which the special-case
maneuver counts as having already run once (`row_iteration = 1`) and
the row does not match the goal row, yet the inner row loop finishes
with a solved row (`SR.ok`) instead of failing: the guard only fires
when the counter exceeds 1. -/
theorem row_retry_counterexample :
    ((Puzzle.init [[2, 3, 6], [1, 4, 8], [7, 5, 0]]).bind (fun p =>
      (Puzzle.init (goalBoard 3)).map (fun g =>
        (is_row_equal g p p.row_in_progress,
         (rowSolveLoop g 500 500 1
           (getCell g.matrix p.row_in_progress p.row_progress_col) p).isOk)))) =
      some (false, true) := by
  rfl

/-- C6 amended: the retry guard fires once the counter exceeds 1,
i.e. after the special-case maneuver has run twice for the current
row without fixing it the solve fails and returns no solution rather
than looping forever (one full extra attempt is made after the first
maneuver), and symmetrically for the per-column counter. -/
theorem retry_guard_fails (goal_puzzle p : Puzzle) (fuel n it tv : Nat)
    (hit : 1 < it) :
    (is_row_equal goal_puzzle p p.row_in_progress = false →
      rowSolveLoop goal_puzzle fuel (n + 1) it tv p = .failed p) ∧
    (is_col_equal goal_puzzle p p.col_in_progress = false →
      colSolveLoop goal_puzzle fuel (n + 1) it tv p = .failed p) := by
  constructor
  · intro h
    unfold rowSolveLoop
    rw [if_pos (by rw [h]; simp), if_pos hit]
  · intro h
    unfold colSolveLoop
    rw [if_pos (by rw [h]; simp), if_pos hit]

/-- Witness for `retry_guard_fails` on a concrete state with the
counter at 2. -/
theorem retry_guard_fails_witness :
    rowSolveLoop
      (Puzzle.mk [[1, 2, 3], [4, 5, 6], [7, 8, 0]]
        3 3 2 2 0 0 2 2 0 0 0 0 true true true [])
      10 10 2 1
      (Puzzle.mk [[2, 3, 6], [1, 4, 8], [7, 5, 0]]
        3 3 2 2 0 0 2 2 0 0 0 0 true true true []) =
    SR.failed (Puzzle.mk [[2, 3, 6], [1, 4, 8], [7, 5, 0]]
        3 3 2 2 0 0 2 2 0 0 0 0 true true true []) :=
  (retry_guard_fails
    (Puzzle.mk [[1, 2, 3], [4, 5, 6], [7, 8, 0]]
      3 3 2 2 0 0 2 2 0 0 0 0 true true true [])
    (Puzzle.mk [[2, 3, 6], [1, 4, 8], [7, 5, 0]]
      3 3 2 2 0 0 2 2 0 0 0 0 true true true [])
    10 9 2 1 (by norm_num)).1 (by decide)

/-- C7 counterexample: on the unsolvable 2×2 board `[[2,1],[3,0]]` the
2×2 close phase fails only after recording 21 slides, not at most
20: the iteration counter is incremented after the slide and the
guard is `iterations > 20`. -/
theorem close_phase_counterexample :
    ((Puzzle.init [[2, 1], [3, 0]]).bind (fun p =>
      (Puzzle.init (goalBoard 2)).map (fun g =>
        match solve_puzzle_strategically 100 p g with
        | .failed pf => some pf.coord_moves.length
        | _ => none))) = some (some 21) := by
  rfl

/-- C7 amended: the 2×2 close loop alternates vertical and horizontal
slides until the region matches the goal, failing once the iteration
ceiling of 20 is exceeded; each iteration performs at most one slide
and at most 21 iterations run, so at most 21 slides are recorded
before failure and the loop always terminates (22 iterations of fuel
always suffice). -/
theorem closeLoop_bound (goal_puzzle : Puzzle) (fuel iterations : Nat)
    (sv : Bool) (p : Puzzle) (hf : 22 ≤ fuel + iterations)
    (hit : iterations ≤ 20) :
    closeLoop goal_puzzle fuel iterations sv p ≠ .fuelOut ∧
    (∀ pf, closeLoop goal_puzzle fuel iterations sv p = .failed pf →
      pf.coord_moves.length ≤ p.coord_moves.length + (21 - iterations)) := by
  induction fuel generalizing iterations sv p with
  | zero => omega
  | succ fuel ih =>
    by_cases heq : goal_puzzle.is_equal_to_puzzle p
    · have hstep : closeLoop goal_puzzle (fuel + 1) iterations sv p = .ok p := by
        unfold closeLoop
        rw [if_neg (by simp [heq])]
      rw [hstep]
      exact ⟨by simp, fun pf h => by simp at h⟩
    · unfold closeLoop
      rw [if_pos (by simp [heq])]
      dsimp only
      generalize hX : (if sv = true then
          if p.can_slide_down = true ∧
              p.blank_row - 1 ≤ goal_puzzle.blank_row - 1 then
            p.slide_down
          else p.slide_up
        else
          if p.can_slide_right = true ∧
              p.blank_col + 1 ≤ goal_puzzle.blank_col + 1 then
            p.slide_right
          else p.slide_left) = q
      have hq : q.coord_moves.length ≤ p.coord_moves.length + 1 := by
        rw [← hX]
        split
        · split
          · exact slide_down_len p
          · exact slide_up_len p
        · split
          · exact slide_right_len p
          · exact slide_left_len p
      split
      · refine ⟨by simp, fun pf h => ?_⟩
        simp only [SR.failed.injEq] at h
        subst h
        omega
      · rename_i hguard
        have hit' : iterations + 1 ≤ 20 := by omega
        obtain ⟨h1, h2⟩ := ih (iterations + 1) (! sv) q (by omega) hit'
        refine ⟨h1, fun pf h => ?_⟩
        have := h2 pf h
        omega

/-- Witness for `closeLoop_bound` on the concrete unsolvable 2×2
close phase. -/
theorem closeLoop_bound_witness :
    closeLoop
      (Puzzle.mk [[1, 2], [3, 0]] 2 2 1 1 0 0 1 1 0 0 0 0 true true true [])
      100 0 true
      (Puzzle.mk [[2, 1], [3, 0]] 2 2 1 1 0 0 1 1 0 0 0 0 true true true []) ≠
    SR.fuelOut :=
  (closeLoop_bound
    (Puzzle.mk [[1, 2], [3, 0]] 2 2 1 1 0 0 1 1 0 0 0 0 true true true [])
    100 0 true
    (Puzzle.mk [[2, 1], [3, 0]] 2 2 1 1 0 0 1 1 0 0 0 0 true true true [])
    (by norm_num) (by norm_num)).1

/-! ## Claim C9: solving an already-solved board -/

/-- C9: if the initial board already equals the goal board, each
solver returns an empty move list: `solve_puzzle_strategically`
returns it immediately with zero moves recorded before performing any
slide, and `AStarSolver.solve` pops the root node, recognises the
goal, and path reconstruction on the root yields the empty list. -/
theorem already_solved_empty_moves (fuel : Nat) (p goal_puzzle : Puzzle)
    (size : Nat) (timeHit : Nat → Bool) (afuel : Nat) (pos : Int × Int)
    (heq : goal_puzzle.is_equal_to_puzzle p = true)
    (hfuel : 1 ≤ afuel) (ht : timeHit 0 = false) :
    solve_puzzle_strategically fuel p goal_puzzle = .ok p [] ∧
    AStarSolver.solve size timeHit afuel (goalBoard size) pos =
      AResult.path [] := by
  constructor
  · unfold solve_puzzle_strategically
    rw [if_pos heq]
  · exact astar_solve_on_goal size timeHit afuel pos hfuel ht

/-- Witness for `already_solved_empty_moves` at a solved 2×2 board. -/
theorem already_solved_empty_moves_witness :
    solve_puzzle_strategically 1
      (Puzzle.mk [[1, 2], [3, 0]] 2 2 1 1 0 0 1 1 0 0 0 0 true true true [])
      (Puzzle.mk [[1, 2], [3, 0]] 2 2 1 1 0 0 1 1 0 0 0 0 true true true []) =
      StratResult.ok
        (Puzzle.mk [[1, 2], [3, 0]] 2 2 1 1 0 0 1 1 0 0 0 0 true true true [])
        [] ∧
    AStarSolver.solve 2 (fun _ => false) 1 (goalBoard 2) (1, 1) =
      AResult.path [] :=
  already_solved_empty_moves 1
    (Puzzle.mk [[1, 2], [3, 0]] 2 2 1 1 0 0 1 1 0 0 0 0 true true true [])
    (Puzzle.mk [[1, 2], [3, 0]] 2 2 1 1 0 0 1 1 0 0 0 0 true true true [])
    2 (fun _ => false) 1 (1, 1) (by decide) (by norm_num) rfl

/-! ## Replay invariance of the strategic solver -/

theorem replay_snoc (rows cols : Int) (m₀ : Matrix) (b₀ : Int × Int)
    (ms : List (Int × Int)) (mv : Int × Int) :
    replay rows cols m₀ b₀ (ms ++ [mv]) =
      match replay rows cols m₀ b₀ ms with
      | none => none
      | some (m, b) => applyMove rows cols m b mv := by
  induction ms generalizing m₀ b₀ with
  | nil =>
    show replay rows cols m₀ b₀ [mv] = applyMove rows cols m₀ b₀ mv
    unfold replay
    cases h : applyMove rows cols m₀ b₀ mv with
    | none => rfl
    | some x => rfl
  | cons x xs ih =>
    show replay rows cols m₀ b₀ (x :: (xs ++ [mv])) = _
    unfold replay
    cases h : applyMove rows cols m₀ b₀ x with
    | none => rfl
    | some y => exact ih y.1 y.2

theorem stratInv_slide_up {rows cols : Int} {m₀ : Matrix} {b₀ : Int × Int}
    {p : Puzzle} (h : StratInv rows cols m₀ b₀ p) :
    StratInv rows cols m₀ b₀ p.slide_up := by
  obtain ⟨hr, hc, h1, h2, h3, h4, hrep⟩ := h
  unfold Puzzle.slide_up
  split
  · rename_i hguard
    unfold StratInv
    dsimp only
    refine ⟨hr, hc, by omega, by omega, h3, h4, ?_⟩
    show replay rows cols m₀ b₀
      (p.coord_moves ++ [(p.blank_row - 1, p.blank_col)]) = _
    rw [replay_snoc, hrep]
    show applyMove rows cols p.matrix (p.blank_row, p.blank_col)
      (p.blank_row - 1, p.blank_col) = _
    unfold applyMove
    rw [if_pos ⟨by omega, by omega, h3, h4, by unfold adjacent; dsimp only; omega⟩]
  · exact ⟨hr, hc, h1, h2, h3, h4, hrep⟩

theorem stratInv_slide_down {rows cols : Int} {m₀ : Matrix} {b₀ : Int × Int}
    {p : Puzzle} (h : StratInv rows cols m₀ b₀ p) :
    StratInv rows cols m₀ b₀ p.slide_down := by
  obtain ⟨hr, hc, h1, h2, h3, h4, hrep⟩ := h
  unfold Puzzle.slide_down
  split
  · rename_i hguard
    rw [hr] at hguard
    unfold StratInv
    dsimp only
    refine ⟨hr, hc, by omega, by omega, h3, h4, ?_⟩
    show replay rows cols m₀ b₀
      (p.coord_moves ++ [(p.blank_row + 1, p.blank_col)]) = _
    rw [replay_snoc, hrep]
    show applyMove rows cols p.matrix (p.blank_row, p.blank_col)
      (p.blank_row + 1, p.blank_col) = _
    unfold applyMove
    rw [if_pos ⟨by omega, by omega, h3, h4, by unfold adjacent; dsimp only; omega⟩]
  · exact ⟨hr, hc, h1, h2, h3, h4, hrep⟩

theorem stratInv_slide_left {rows cols : Int} {m₀ : Matrix} {b₀ : Int × Int}
    {p : Puzzle} (h : StratInv rows cols m₀ b₀ p) :
    StratInv rows cols m₀ b₀ p.slide_left := by
  obtain ⟨hr, hc, h1, h2, h3, h4, hrep⟩ := h
  unfold Puzzle.slide_left
  split
  · rename_i hguard
    unfold StratInv
    dsimp only
    refine ⟨hr, hc, h1, h2, by omega, by omega, ?_⟩
    show replay rows cols m₀ b₀
      (p.coord_moves ++ [(p.blank_row, p.blank_col - 1)]) = _
    rw [replay_snoc, hrep]
    show applyMove rows cols p.matrix (p.blank_row, p.blank_col)
      (p.blank_row, p.blank_col - 1) = _
    unfold applyMove
    rw [if_pos ⟨h1, h2, by omega, by omega, by unfold adjacent; dsimp only; omega⟩]
  · exact ⟨hr, hc, h1, h2, h3, h4, hrep⟩

theorem stratInv_slide_right {rows cols : Int} {m₀ : Matrix} {b₀ : Int × Int}
    {p : Puzzle} (h : StratInv rows cols m₀ b₀ p) :
    StratInv rows cols m₀ b₀ p.slide_right := by
  obtain ⟨hr, hc, h1, h2, h3, h4, hrep⟩ := h
  unfold Puzzle.slide_right
  split
  · rename_i hguard
    rw [hc] at hguard
    unfold StratInv
    dsimp only
    refine ⟨hr, hc, h1, h2, by omega, by omega, ?_⟩
    show replay rows cols m₀ b₀
      (p.coord_moves ++ [(p.blank_row, p.blank_col + 1)]) = _
    rw [replay_snoc, hrep]
    show applyMove rows cols p.matrix (p.blank_row, p.blank_col)
      (p.blank_row, p.blank_col + 1) = _
    unfold applyMove
    rw [if_pos ⟨h1, h2, by omega, by omega, by unfold adjacent; dsimp only; omega⟩]
  · exact ⟨hr, hc, h1, h2, h3, h4, hrep⟩

theorem stratInv_mbud {rows cols : Int} {m₀ : Matrix} {b₀ : Int × Int}
    {p : Puzzle} (h : StratInv rows cols m₀ b₀ p) :
    StratInv rows cols m₀ b₀ (move_blank_up_or_down p) := by
  unfold move_blank_up_or_down
  split
  · exact stratInv_slide_down h
  · split
    · exact stratInv_slide_up h
    · split
      · exact stratInv_slide_down h
      · exact stratInv_slide_up h

theorem stratInv_mblr {rows cols : Int} {m₀ : Matrix} {b₀ : Int × Int}
    {p : Puzzle} (h : StratInv rows cols m₀ b₀ p) :
    StratInv rows cols m₀ b₀ (move_blank_left_or_right p) := by
  unfold move_blank_left_or_right
  split
  · exact stratInv_slide_left h
  · split
    · exact stratInv_slide_right h
    · split
      · exact stratInv_slide_right h
      · exact stratInv_slide_left h

theorem stratInv_mbtc {rows cols : Int} {m₀ : Matrix} {b₀ : Int × Int} :
    ∀ (fuel : Nat) {p : Puzzle} {target : Int} {q : Puzzle},
      StratInv rows cols m₀ b₀ p →
      move_blank_to_col fuel p target = some q →
      StratInv rows cols m₀ b₀ q := by
  intro fuel
  induction fuel with
  | zero => intro p target q _ h; simp [move_blank_to_col] at h
  | succ fuel ih =>
    intro p target q hInv h
    unfold move_blank_to_col at h
    split at h
    · split at h
      · exact ih (stratInv_slide_right hInv) h
      · exact ih (stratInv_slide_left hInv) h
    · simp only [Option.some.injEq] at h
      exact h ▸ hInv

theorem stratInv_mbtr {rows cols : Int} {m₀ : Matrix} {b₀ : Int × Int} :
    ∀ (fuel : Nat) {p : Puzzle} {target : Int} {q : Puzzle},
      StratInv rows cols m₀ b₀ p →
      move_blank_to_row fuel p target = some q →
      StratInv rows cols m₀ b₀ q := by
  intro fuel
  induction fuel with
  | zero => intro p target q _ h; simp [move_blank_to_row] at h
  | succ fuel ih =>
    intro p target q hInv h
    unfold move_blank_to_row at h
    split at h
    · split at h
      · exact ih (stratInv_slide_down hInv) h
      · exact ih (stratInv_slide_up hInv) h
    · simp only [Option.some.injEq] at h
      exact h ▸ hInv

/-! ## Invariance of the tile-movement routines -/

set_option maxHeartbeats 1600000 in
theorem stratInv_mtl {rows cols : Int} {m₀ : Matrix} {b₀ : Int × Int}
    (fuel : Nat) {p : Puzzle} {t : Tile} {q : Puzzle}
    (hInv : StratInv rows cols m₀ b₀ p)
    (h : move_tile_left fuel p t = some q) :
    StratInv rows cols m₀ b₀ q := by
  unfold move_tile_left at h
  dsimp only at h
  split at h
  next =>
    replace hInv := stratInv_mbud hInv
    generalize hg : move_blank_up_or_down p = p0 at h hInv
    repeat' (split at h)
    all_goals (
      simp only [bind, Option.bind_eq_some, Option.pure_def,
        Option.some.injEq] at h
      repeat
        (obtain ⟨pn, hstep, h⟩ := h
         replace hInv : StratInv rows cols m₀ b₀ pn := by
           first
           | exact stratInv_mbtc _ hInv hstep
           | exact stratInv_mbtr _ hInv hstep
           | exact hstep ▸ hInv
           | ((repeat split at hstep) <;>
              first
              | exact stratInv_mbtc _ hInv hstep
              | exact stratInv_mbtr _ hInv hstep
              | exact stratInv_mbtc _ (stratInv_mblr hInv) hstep
              | exact stratInv_mbtr _ (stratInv_mblr hInv) hstep
              | exact stratInv_mbtc _ (stratInv_mbud hInv) hstep
              | exact stratInv_mbtr _ (stratInv_mbud hInv) hstep
              | exact stratInv_mbtc _ (stratInv_slide_down hInv) hstep
              | exact stratInv_mbtr _ (stratInv_slide_down hInv) hstep
              | exact stratInv_mbtc _ (stratInv_slide_up hInv) hstep
              | exact stratInv_mbtr _ (stratInv_slide_up hInv) hstep
              | exact stratInv_mbtc _ (stratInv_slide_left hInv) hstep
              | exact stratInv_mbtr _ (stratInv_slide_left hInv) hstep
              | exact stratInv_mbtc _ (stratInv_slide_right hInv) hstep
              | exact stratInv_mbtr _ (stratInv_slide_right hInv) hstep
              | exact hstep ▸ hInv
              | exact hstep ▸ stratInv_slide_down hInv
              | exact hstep ▸ stratInv_slide_up hInv
              | exact hstep ▸ stratInv_slide_left hInv
              | exact hstep ▸ stratInv_slide_right hInv))
      first
      | exact h ▸ stratInv_slide_right hInv
      | exact h ▸ stratInv_slide_left hInv
      | exact h ▸ stratInv_slide_down hInv
      | exact h ▸ stratInv_slide_up hInv)
  next =>
    repeat' (split at h)
    all_goals (
      simp only [bind, Option.bind_eq_some, Option.pure_def,
        Option.some.injEq] at h
      repeat
        (obtain ⟨pn, hstep, h⟩ := h
         replace hInv : StratInv rows cols m₀ b₀ pn := by
           first
           | exact stratInv_mbtc _ hInv hstep
           | exact stratInv_mbtr _ hInv hstep
           | exact hstep ▸ hInv
           | ((repeat split at hstep) <;>
              first
              | exact stratInv_mbtc _ hInv hstep
              | exact stratInv_mbtr _ hInv hstep
              | exact stratInv_mbtc _ (stratInv_mblr hInv) hstep
              | exact stratInv_mbtr _ (stratInv_mblr hInv) hstep
              | exact stratInv_mbtc _ (stratInv_mbud hInv) hstep
              | exact stratInv_mbtr _ (stratInv_mbud hInv) hstep
              | exact stratInv_mbtc _ (stratInv_slide_down hInv) hstep
              | exact stratInv_mbtr _ (stratInv_slide_down hInv) hstep
              | exact stratInv_mbtc _ (stratInv_slide_up hInv) hstep
              | exact stratInv_mbtr _ (stratInv_slide_up hInv) hstep
              | exact stratInv_mbtc _ (stratInv_slide_left hInv) hstep
              | exact stratInv_mbtr _ (stratInv_slide_left hInv) hstep
              | exact stratInv_mbtc _ (stratInv_slide_right hInv) hstep
              | exact stratInv_mbtr _ (stratInv_slide_right hInv) hstep
              | exact hstep ▸ hInv
              | exact hstep ▸ stratInv_slide_down hInv
              | exact hstep ▸ stratInv_slide_up hInv
              | exact hstep ▸ stratInv_slide_left hInv
              | exact hstep ▸ stratInv_slide_right hInv))
      first
      | exact h ▸ stratInv_slide_right hInv
      | exact h ▸ stratInv_slide_left hInv
      | exact h ▸ stratInv_slide_down hInv
      | exact h ▸ stratInv_slide_up hInv)

set_option maxHeartbeats 1600000 in
theorem stratInv_mtr {rows cols : Int} {m₀ : Matrix} {b₀ : Int × Int}
    (fuel : Nat) {p : Puzzle} {t : Tile} {q : Puzzle}
    (hInv : StratInv rows cols m₀ b₀ p)
    (h : move_tile_right fuel p t = some q) :
    StratInv rows cols m₀ b₀ q := by
  unfold move_tile_right at h
  dsimp only at h
  split at h
  next =>
    replace hInv := stratInv_mbud hInv
    generalize hg : move_blank_up_or_down p = p0 at h hInv
    repeat' (split at h)
    all_goals (
      simp only [bind, Option.bind_eq_some, Option.pure_def,
        Option.some.injEq] at h
      repeat
        (obtain ⟨pn, hstep, h⟩ := h
         replace hInv : StratInv rows cols m₀ b₀ pn := by
           first
           | exact stratInv_mbtc _ hInv hstep
           | exact stratInv_mbtr _ hInv hstep
           | exact hstep ▸ hInv
           | ((repeat split at hstep) <;>
              first
              | exact stratInv_mbtc _ hInv hstep
              | exact stratInv_mbtr _ hInv hstep
              | exact stratInv_mbtc _ (stratInv_mblr hInv) hstep
              | exact stratInv_mbtr _ (stratInv_mblr hInv) hstep
              | exact stratInv_mbtc _ (stratInv_mbud hInv) hstep
              | exact stratInv_mbtr _ (stratInv_mbud hInv) hstep
              | exact stratInv_mbtc _ (stratInv_slide_down hInv) hstep
              | exact stratInv_mbtr _ (stratInv_slide_down hInv) hstep
              | exact stratInv_mbtc _ (stratInv_slide_up hInv) hstep
              | exact stratInv_mbtr _ (stratInv_slide_up hInv) hstep
              | exact stratInv_mbtc _ (stratInv_slide_left hInv) hstep
              | exact stratInv_mbtr _ (stratInv_slide_left hInv) hstep
              | exact stratInv_mbtc _ (stratInv_slide_right hInv) hstep
              | exact stratInv_mbtr _ (stratInv_slide_right hInv) hstep
              | exact hstep ▸ hInv
              | exact hstep ▸ stratInv_slide_down hInv
              | exact hstep ▸ stratInv_slide_up hInv
              | exact hstep ▸ stratInv_slide_left hInv
              | exact hstep ▸ stratInv_slide_right hInv))
      first
      | exact h ▸ stratInv_slide_right hInv
      | exact h ▸ stratInv_slide_left hInv
      | exact h ▸ stratInv_slide_down hInv
      | exact h ▸ stratInv_slide_up hInv)
  next =>
    repeat' (split at h)
    all_goals (
      simp only [bind, Option.bind_eq_some, Option.pure_def,
        Option.some.injEq] at h
      repeat
        (obtain ⟨pn, hstep, h⟩ := h
         replace hInv : StratInv rows cols m₀ b₀ pn := by
           first
           | exact stratInv_mbtc _ hInv hstep
           | exact stratInv_mbtr _ hInv hstep
           | exact hstep ▸ hInv
           | ((repeat split at hstep) <;>
              first
              | exact stratInv_mbtc _ hInv hstep
              | exact stratInv_mbtr _ hInv hstep
              | exact stratInv_mbtc _ (stratInv_mblr hInv) hstep
              | exact stratInv_mbtr _ (stratInv_mblr hInv) hstep
              | exact stratInv_mbtc _ (stratInv_mbud hInv) hstep
              | exact stratInv_mbtr _ (stratInv_mbud hInv) hstep
              | exact stratInv_mbtc _ (stratInv_slide_down hInv) hstep
              | exact stratInv_mbtr _ (stratInv_slide_down hInv) hstep
              | exact stratInv_mbtc _ (stratInv_slide_up hInv) hstep
              | exact stratInv_mbtr _ (stratInv_slide_up hInv) hstep
              | exact stratInv_mbtc _ (stratInv_slide_left hInv) hstep
              | exact stratInv_mbtr _ (stratInv_slide_left hInv) hstep
              | exact stratInv_mbtc _ (stratInv_slide_right hInv) hstep
              | exact stratInv_mbtr _ (stratInv_slide_right hInv) hstep
              | exact hstep ▸ hInv
              | exact hstep ▸ stratInv_slide_down hInv
              | exact hstep ▸ stratInv_slide_up hInv
              | exact hstep ▸ stratInv_slide_left hInv
              | exact hstep ▸ stratInv_slide_right hInv))
      first
      | exact h ▸ stratInv_slide_right hInv
      | exact h ▸ stratInv_slide_left hInv
      | exact h ▸ stratInv_slide_down hInv
      | exact h ▸ stratInv_slide_up hInv)

set_option maxHeartbeats 1600000 in
theorem stratInv_mtu {rows cols : Int} {m₀ : Matrix} {b₀ : Int × Int}
    (fuel : Nat) {p : Puzzle} {t : Tile} {q : Puzzle}
    (hInv : StratInv rows cols m₀ b₀ p)
    (h : move_tile_up fuel p t = some q) :
    StratInv rows cols m₀ b₀ q := by
  unfold move_tile_up at h
  dsimp only at h
  repeat' (split at h)
  all_goals (
      simp only [bind, Option.bind_eq_some, Option.pure_def,
        Option.some.injEq] at h
      repeat
        (obtain ⟨pn, hstep, h⟩ := h
         replace hInv : StratInv rows cols m₀ b₀ pn := by
           first
           | exact stratInv_mbtc _ hInv hstep
           | exact stratInv_mbtr _ hInv hstep
           | exact hstep ▸ hInv
           | ((repeat split at hstep) <;>
              first
              | exact stratInv_mbtc _ hInv hstep
              | exact stratInv_mbtr _ hInv hstep
              | exact stratInv_mbtc _ (stratInv_mblr hInv) hstep
              | exact stratInv_mbtr _ (stratInv_mblr hInv) hstep
              | exact stratInv_mbtc _ (stratInv_mbud hInv) hstep
              | exact stratInv_mbtr _ (stratInv_mbud hInv) hstep
              | exact stratInv_mbtc _ (stratInv_slide_down hInv) hstep
              | exact stratInv_mbtr _ (stratInv_slide_down hInv) hstep
              | exact stratInv_mbtc _ (stratInv_slide_up hInv) hstep
              | exact stratInv_mbtr _ (stratInv_slide_up hInv) hstep
              | exact stratInv_mbtc _ (stratInv_slide_left hInv) hstep
              | exact stratInv_mbtr _ (stratInv_slide_left hInv) hstep
              | exact stratInv_mbtc _ (stratInv_slide_right hInv) hstep
              | exact stratInv_mbtr _ (stratInv_slide_right hInv) hstep
              | exact hstep ▸ hInv
              | exact hstep ▸ stratInv_slide_down hInv
              | exact hstep ▸ stratInv_slide_up hInv
              | exact hstep ▸ stratInv_slide_left hInv
              | exact hstep ▸ stratInv_slide_right hInv))
      first
      | exact h ▸ stratInv_slide_right hInv
      | exact h ▸ stratInv_slide_left hInv
      | exact h ▸ stratInv_slide_down hInv
      | exact h ▸ stratInv_slide_up hInv)

set_option maxHeartbeats 1600000 in
theorem stratInv_mtd {rows cols : Int} {m₀ : Matrix} {b₀ : Int × Int}
    (fuel : Nat) {p : Puzzle} {t : Tile} {q : Puzzle}
    (hInv : StratInv rows cols m₀ b₀ p)
    (h : move_tile_down fuel p t = some q) :
    StratInv rows cols m₀ b₀ q := by
  unfold move_tile_down at h
  dsimp only at h
  repeat' (split at h)
  all_goals (
      simp only [bind, Option.bind_eq_some, Option.pure_def,
        Option.some.injEq] at h
      repeat
        (obtain ⟨pn, hstep, h⟩ := h
         replace hInv : StratInv rows cols m₀ b₀ pn := by
           first
           | exact stratInv_mbtc _ hInv hstep
           | exact stratInv_mbtr _ hInv hstep
           | exact hstep ▸ hInv
           | ((repeat split at hstep) <;>
              first
              | exact stratInv_mbtc _ hInv hstep
              | exact stratInv_mbtr _ hInv hstep
              | exact stratInv_mbtc _ (stratInv_mblr hInv) hstep
              | exact stratInv_mbtr _ (stratInv_mblr hInv) hstep
              | exact stratInv_mbtc _ (stratInv_mbud hInv) hstep
              | exact stratInv_mbtr _ (stratInv_mbud hInv) hstep
              | exact stratInv_mbtc _ (stratInv_slide_down hInv) hstep
              | exact stratInv_mbtr _ (stratInv_slide_down hInv) hstep
              | exact stratInv_mbtc _ (stratInv_slide_up hInv) hstep
              | exact stratInv_mbtr _ (stratInv_slide_up hInv) hstep
              | exact stratInv_mbtc _ (stratInv_slide_left hInv) hstep
              | exact stratInv_mbtr _ (stratInv_slide_left hInv) hstep
              | exact stratInv_mbtc _ (stratInv_slide_right hInv) hstep
              | exact stratInv_mbtr _ (stratInv_slide_right hInv) hstep
              | exact hstep ▸ hInv
              | exact hstep ▸ stratInv_slide_down hInv
              | exact hstep ▸ stratInv_slide_up hInv
              | exact hstep ▸ stratInv_slide_left hInv
              | exact hstep ▸ stratInv_slide_right hInv))
      first
      | exact h ▸ stratInv_slide_right hInv
      | exact h ▸ stratInv_slide_left hInv
      | exact h ▸ stratInv_slide_down hInv
      | exact h ▸ stratInv_slide_up hInv)

/-! ## Invariance of `move_tile` and the solver loops -/

theorem stratInv_loopLeft {rows cols : Int} {m₀ : Matrix} {b₀ : Int × Int}
    (fuel : Nat) (g : Int) :
    ∀ (n : Nat) {p : Puzzle} {t : Tile} {q : Puzzle} {t' : Tile},
      StratInv rows cols m₀ b₀ p →
      moveTileLoopLeft fuel g n p t = some (q, t') →
      StratInv rows cols m₀ b₀ q := by
  intro n
  induction n with
  | zero =>
    intro p t q t' _ h
    simp [moveTileLoopLeft] at h
  | succ n ih =>
    intro p t q t' hInv h
    unfold moveTileLoopLeft at h
    split at h
    · simp only [bind, Option.bind_eq_some] at h
      obtain ⟨p1, hp1, h⟩ := h
      exact ih (stratInv_mtl fuel hInv hp1) h
    · simp only [Option.some.injEq, Prod.mk.injEq] at h
      exact h.1 ▸ hInv

theorem stratInv_loopRight {rows cols : Int} {m₀ : Matrix} {b₀ : Int × Int}
    (fuel : Nat) (g : Int) :
    ∀ (n : Nat) {p : Puzzle} {t : Tile} {q : Puzzle} {t' : Tile},
      StratInv rows cols m₀ b₀ p →
      moveTileLoopRight fuel g n p t = some (q, t') →
      StratInv rows cols m₀ b₀ q := by
  intro n
  induction n with
  | zero =>
    intro p t q t' _ h
    simp [moveTileLoopRight] at h
  | succ n ih =>
    intro p t q t' hInv h
    unfold moveTileLoopRight at h
    split at h
    · simp only [bind, Option.bind_eq_some] at h
      obtain ⟨p1, hp1, h⟩ := h
      exact ih (stratInv_mtr fuel hInv hp1) h
    · simp only [Option.some.injEq, Prod.mk.injEq] at h
      exact h.1 ▸ hInv

theorem stratInv_loopUp {rows cols : Int} {m₀ : Matrix} {b₀ : Int × Int}
    (fuel : Nat) (g : Int) :
    ∀ (n : Nat) {p : Puzzle} {t : Tile} {q : Puzzle} {t' : Tile},
      StratInv rows cols m₀ b₀ p →
      moveTileLoopUp fuel g n p t = some (q, t') →
      StratInv rows cols m₀ b₀ q := by
  intro n
  induction n with
  | zero =>
    intro p t q t' _ h
    simp [moveTileLoopUp] at h
  | succ n ih =>
    intro p t q t' hInv h
    unfold moveTileLoopUp at h
    split at h
    · simp only [bind, Option.bind_eq_some] at h
      obtain ⟨p1, hp1, h⟩ := h
      exact ih (stratInv_mtu fuel hInv hp1) h
    · simp only [Option.some.injEq, Prod.mk.injEq] at h
      exact h.1 ▸ hInv

theorem stratInv_loopDown {rows cols : Int} {m₀ : Matrix} {b₀ : Int × Int}
    (fuel : Nat) (g : Int) :
    ∀ (n : Nat) {p : Puzzle} {t : Tile} {q : Puzzle} {t' : Tile},
      StratInv rows cols m₀ b₀ p →
      moveTileLoopDown fuel g n p t = some (q, t') →
      StratInv rows cols m₀ b₀ q := by
  intro n
  induction n with
  | zero =>
    intro p t q t' _ h
    simp [moveTileLoopDown] at h
  | succ n ih =>
    intro p t q t' hInv h
    unfold moveTileLoopDown at h
    split at h
    · simp only [bind, Option.bind_eq_some] at h
      obtain ⟨p1, hp1, h⟩ := h
      exact ih (stratInv_mtd fuel hInv hp1) h
    · simp only [Option.some.injEq, Prod.mk.injEq] at h
      exact h.1 ▸ hInv

theorem stratInv_move_tile {rows cols : Int} {m₀ : Matrix} {b₀ : Int × Int}
    (fuel : Nat) {p : Puzzle} {v : Nat} {gr gc : Int} {q : Puzzle}
    (hInv : StratInv rows cols m₀ b₀ p)
    (h : move_tile fuel p v gr gc = some q) :
    StratInv rows cols m₀ b₀ q := by
  unfold move_tile at h
  by_cases hc : (matrixMapping p.matrix v).1 = gr ∧
      (matrixMapping p.matrix v).2 = gc
  · rw [if_pos hc] at h
    simp only [Option.some.injEq] at h
    exact h ▸ hInv
  · rw [if_neg hc] at h
    dsimp only at h
    split at h <;>
      (simp only [bind, Option.bind_eq_some, Option.pure_def,
         Option.some.injEq] at h
       obtain ⟨⟨p1, t1⟩, hp1, ⟨p2, t2⟩, hp2, ⟨p3, t3⟩, hp3, ⟨p4, t4⟩, hp4,
         rfl⟩ := h)
    · exact stratInv_loopDown fuel gr _
        (stratInv_loopUp fuel gr _
          (stratInv_loopRight fuel gc _
            (stratInv_loopLeft fuel gc _ hInv hp1) hp2) hp3) hp4
    · exact stratInv_loopRight fuel gc _
        (stratInv_loopLeft fuel gc _
          (stratInv_loopDown fuel gr _
            (stratInv_loopUp fuel gr _ hInv hp1) hp2) hp3) hp4

theorem SR_bindO_ok {o : Option Puzzle} {k : Puzzle → SR} {q : Puzzle}
    (h : SR.bindO o k = .ok q) : ∃ p1, o = some p1 ∧ k p1 = .ok q := by
  unfold SR.bindO at h
  cases o with
  | none => simp at h
  | some p1 => exact ⟨p1, rfl, h⟩

theorem stratInv_rowSolve {rows cols : Int} {m₀ : Matrix} {b₀ : Int × Int}
    (goal_puzzle : Puzzle) (fuel : Nat) :
    ∀ (n it tv : Nat) {p q : Puzzle},
      StratInv rows cols m₀ b₀ p →
      rowSolveLoop goal_puzzle fuel n it tv p = .ok q →
      StratInv rows cols m₀ b₀ q := by
  intro n
  induction n with
  | zero =>
    intro it tv p q _ h
    simp [rowSolveLoop] at h
  | succ n ih =>
    intro it tv p q hInv h
    unfold rowSolveLoop at h
    dsimp only at h
    split at h
    · split at h
      · simp at h
      · split at h
        · obtain ⟨p1, hp1, h⟩ := SR_bindO_ok h
          have hInv1 : StratInv rows cols m₀ b₀ p1 :=
            stratInv_move_tile fuel hInv hp1
          refine ih _ _ ?_ h
          exact hInv1
        · split at h <;>
            (obtain ⟨p1, hp1, h⟩ := SR_bindO_ok h
             obtain ⟨p2, hp2, h⟩ := SR_bindO_ok h
             obtain ⟨p3, hp3, h⟩ := SR_bindO_ok h
             obtain ⟨p4, hp4, h⟩ := SR_bindO_ok h
             obtain ⟨p5, hp5, h⟩ := SR_bindO_ok h)
          · refine ih _ _ ?_ h
            exact stratInv_slide_down (stratInv_slide_right
              (stratInv_mbtr fuel
                (stratInv_mbtc fuel
                  (stratInv_move_tile fuel
                    (stratInv_move_tile fuel
                      (stratInv_move_tile fuel hInv hp1) hp2) hp3) hp4) hp5))
          · refine ih _ _ ?_ h
            exact stratInv_slide_up (stratInv_slide_right
              (stratInv_mbtr fuel
                (stratInv_mbtc fuel
                  (stratInv_move_tile fuel
                    (stratInv_move_tile fuel
                      (stratInv_move_tile fuel hInv hp1) hp2) hp3) hp4) hp5))
    · simp only [SR.ok.injEq] at h
      exact h ▸ hInv

theorem stratInv_colSolve {rows cols : Int} {m₀ : Matrix} {b₀ : Int × Int}
    (goal_puzzle : Puzzle) (fuel : Nat) :
    ∀ (n it tv : Nat) {p q : Puzzle},
      StratInv rows cols m₀ b₀ p →
      colSolveLoop goal_puzzle fuel n it tv p = .ok q →
      StratInv rows cols m₀ b₀ q := by
  intro n
  induction n with
  | zero =>
    intro it tv p q _ h
    simp [colSolveLoop] at h
  | succ n ih =>
    intro it tv p q hInv h
    unfold colSolveLoop at h
    dsimp only at h
    split at h
    · split at h
      · simp at h
      · split at h
        · obtain ⟨p1, hp1, h⟩ := SR_bindO_ok h
          have hInv1 : StratInv rows cols m₀ b₀ p1 :=
            stratInv_move_tile fuel hInv hp1
          refine ih _ _ ?_ h
          exact hInv1
        · split at h <;>
            (obtain ⟨p1, hp1, h⟩ := SR_bindO_ok h
             obtain ⟨p2, hp2, h⟩ := SR_bindO_ok h
             obtain ⟨p3, hp3, h⟩ := SR_bindO_ok h
             obtain ⟨p4, hp4, h⟩ := SR_bindO_ok h
             obtain ⟨p5, hp5, h⟩ := SR_bindO_ok h)
          · refine ih _ _ ?_ h
            exact stratInv_slide_right (stratInv_slide_down
              (stratInv_mbtc fuel
                (stratInv_mbtr fuel
                  (stratInv_move_tile fuel
                    (stratInv_move_tile fuel
                      (stratInv_move_tile fuel hInv hp1) hp2) hp3) hp4) hp5))
          · refine ih _ _ ?_ h
            exact stratInv_slide_left (stratInv_slide_down
              (stratInv_mbtc fuel
                (stratInv_mbtr fuel
                  (stratInv_move_tile fuel
                    (stratInv_move_tile fuel
                      (stratInv_move_tile fuel hInv hp1) hp2) hp3) hp4) hp5))
    · simp only [SR.ok.injEq] at h
      exact h ▸ hInv

theorem stratInv_rowPhase {rows cols : Int} {m₀ : Matrix} {b₀ : Int × Int}
    (goal_puzzle : Puzzle) (fuel : Nat) :
    ∀ (n : Nat) {p q : Puzzle},
      StratInv rows cols m₀ b₀ p →
      rowPhase goal_puzzle fuel n p = .ok q →
      StratInv rows cols m₀ b₀ q := by
  intro n
  induction n with
  | zero =>
    intro p q _ h
    simp [rowPhase] at h
  | succ n ih =>
    intro p q hInv h
    unfold rowPhase at h
    dsimp only at h
    split at h
    · split at h
      · split at h <;> (refine ih ?_ h; exact hInv)
      · split at h
        · simp at h
        · simp at h
        · rename_i p1 hr
          refine ih ?_ h
          refine stratInv_rowSolve goal_puzzle fuel fuel 0 _ ?_ hr
          split
          · split
            · exact hInv
            · exact hInv
          · exact hInv
    · simp only [SR.ok.injEq] at h
      exact h ▸ hInv

theorem stratInv_colPhase {rows cols : Int} {m₀ : Matrix} {b₀ : Int × Int}
    (goal_puzzle : Puzzle) (fuel : Nat) :
    ∀ (n : Nat) {p q : Puzzle},
      StratInv rows cols m₀ b₀ p →
      colPhase goal_puzzle fuel n p = .ok q →
      StratInv rows cols m₀ b₀ q := by
  intro n
  induction n with
  | zero =>
    intro p q _ h
    simp [colPhase] at h
  | succ n ih =>
    intro p q hInv h
    unfold colPhase at h
    dsimp only at h
    split at h
    · split at h
      · split at h <;> (refine ih ?_ h; exact hInv)
      · split at h
        · simp at h
        · simp at h
        · rename_i p1 hr
          refine ih ?_ h
          refine stratInv_colSolve goal_puzzle fuel fuel 0 _ ?_ hr
          split
          · split
            · exact hInv
            · exact hInv
          · exact hInv
    · simp only [SR.ok.injEq] at h
      exact h ▸ hInv

theorem stratInv_closeLoop {rows cols : Int} {m₀ : Matrix} {b₀ : Int × Int}
    (goal_puzzle : Puzzle) :
    ∀ (n it : Nat) (sv : Bool) {p q : Puzzle},
      StratInv rows cols m₀ b₀ p →
      closeLoop goal_puzzle n it sv p = .ok q →
      StratInv rows cols m₀ b₀ q := by
  intro n
  induction n with
  | zero =>
    intro it sv p q _ h
    simp [closeLoop] at h
  | succ n ih =>
    intro it sv p q hInv h
    unfold closeLoop at h
    split at h
    · dsimp only at h
      split at h
      · simp at h
      · refine ih _ _ ?_ h
        split
        · split
          · exact stratInv_slide_down hInv
          · exact stratInv_slide_up hInv
        · split
          · exact stratInv_slide_right hInv
          · exact stratInv_slide_left hInv
    · simp only [SR.ok.injEq] at h
      exact h ▸ hInv

theorem stratInv_outerLoop {rows cols : Int} {m₀ : Matrix} {b₀ : Int × Int}
    (goal_puzzle : Puzzle) (fuel : Nat) :
    ∀ (n : Nat) {p q : Puzzle},
      StratInv rows cols m₀ b₀ p →
      outerLoop goal_puzzle fuel n p = .ok q →
      StratInv rows cols m₀ b₀ q ∧
        goal_puzzle.is_equal_to_puzzle q = true := by
  intro n
  induction n with
  | zero =>
    intro p q _ h
    simp [outerLoop] at h
  | succ n ih =>
    intro p q hInv h
    unfold outerLoop at h
    split at h
    · split at h
      · simp at h
      · simp at h
      · rename_i p1 hrow
        split at h
        · simp at h
        · simp at h
        · rename_i p2 hcol
          have hInv2 : StratInv rows cols m₀ b₀ p2 :=
            stratInv_colPhase goal_puzzle fuel fuel
              (stratInv_rowPhase goal_puzzle fuel fuel hInv hrow) hcol
          split at h
          · split at h
            · simp at h
            · simp at h
            · rename_i p3 hclose
              exact ih (stratInv_closeLoop goal_puzzle fuel 0 true hInv2 hclose) h
          · exact ih hInv2 h
    · rename_i heq
      simp only [SR.ok.injEq] at h
      subst h
      constructor
      · exact hInv
      · by_contra hne
        exact heq (by simp at hne ⊢; simpa using hne)

theorem findIdx?_go_bounds {p : Nat → Bool} :
    ∀ {l : List Nat} {i j : Nat}, List.findIdx? p l i = some j →
      i ≤ j ∧ j < i + l.length := by
  intro l
  induction l with
  | nil =>
    intro i j h
    simp [List.findIdx?] at h
  | cons x xs ih =>
    intro i j h
    unfold List.findIdx? at h
    split at h
    · simp only [Option.some.injEq] at h
      subst h
      simp
    · obtain ⟨h1, h2⟩ := ih h
      constructor
      · omega
      · simp only [List.length_cons]
        omega

theorem findIdx?_lt_length {p : Nat → Bool} {l : List Nat} {j : Nat}
    (h : List.findIdx? p l = some j) : j < l.length := by
  have := findIdx?_go_bounds h
  omega

theorem findBlankAux_bounds :
    ∀ (m : Matrix) (k : Nat) {i j : Int},
      findBlankAux k m = some (i, j) →
      (k : Int) ≤ i ∧ i < (k : Int) + m.length ∧ 0 ≤ j ∧
        ∃ row ∈ m, j < (row.length : Int) := by
  intro m
  induction m with
  | nil =>
    intro k i j h
    simp [findBlankAux] at h
  | cons row rest ih =>
    intro k i j h
    unfold findBlankAux at h
    cases hf : row.findIdx? (fun v => v == 0) with
    | some jj =>
      rw [hf] at h
      simp only [Option.some.injEq, Prod.mk.injEq] at h
      obtain ⟨rfl, rfl⟩ := h
      have hlt := findIdx?_lt_length hf
      refine ⟨le_refl _, ?_, by positivity, row, List.mem_cons_self _ _, ?_⟩
      · simp only [List.length_cons]
        push_cast
        omega
      · exact_mod_cast hlt
    | none =>
      rw [hf] at h
      obtain ⟨h1, h2, h3, row', hrow', h4⟩ := ih (k + 1) h
      refine ⟨?_, ?_, h3, row', List.mem_cons_of_mem _ hrow', h4⟩
      · push_cast at h1 ⊢
        omega
      · simp only [List.length_cons] at h2 ⊢
        push_cast at h2 ⊢
        omega

theorem solve_strat_replay {rows cols : Int} {m₀ : Matrix} {b₀ : Int × Int}
    (fuel : Nat) {p g q : Puzzle} {mv : List (Int × Int)}
    (hInv : StratInv rows cols m₀ b₀ p) (h0 : p.coord_moves = [])
    (h : solve_puzzle_strategically fuel p g = .ok q mv) :
    ∃ bp, replay rows cols m₀ b₀ mv = some (g.matrix, bp) := by
  have hm0 : p.matrix = m₀ ∧ b₀ = (p.blank_row, p.blank_col) := by
    obtain ⟨_, _, _, _, _, _, hrep⟩ := hInv
    rw [h0] at hrep
    unfold replay at hrep
    simp only [Option.some.injEq, Prod.mk.injEq] at hrep
    exact ⟨hrep.1.symm, hrep.2⟩
  unfold solve_puzzle_strategically at h
  split at h
  · rename_i heq
    simp only [StratResult.ok.injEq] at h
    obtain ⟨hq, hmv⟩ := h
    refine ⟨b₀, ?_⟩
    rw [← hmv]
    unfold Puzzle.is_equal_to_puzzle at heq
    rw [beq_iff_eq] at heq
    show some (m₀, b₀) = some (g.matrix, b₀)
    rw [heq, hm0.1]
  · dsimp only at h
    split at h
    · simp at h
    · simp at h
    · rename_i p1 hloop
      simp only [StratResult.ok.injEq] at h
      obtain ⟨hq, hmv⟩ := h
      have hres := stratInv_outerLoop g fuel fuel (q := p1)
        (by exact hInv) hloop
      obtain ⟨⟨_, _, _, _, _, _, hrep⟩, heq⟩ := hres
      unfold Puzzle.is_equal_to_puzzle at heq
      rw [beq_iff_eq] at heq
      refine ⟨(p1.blank_row, p1.blank_col), ?_⟩
      rw [← hmv, hrep, heq]

/-- The strategic half of claim C1: whatever move list `solve_human`
returns replays legally from the initial board to the canonical goal
board. -/
theorem solve_human_replay (size fuel : Nat) (b : Matrix)
    (mv : List (Int × Int)) (hwf : WFMat size size b) (hs : 1 ≤ size)
    (h : solve_human size fuel b = .moves mv) :
    ∃ bp bp', findBlankAux 0 b = some bp ∧
      replay size size b bp mv = some (goalBoard size, bp') := by
  unfold solve_human at h
  cases hpi : Puzzle.init b with
  | none =>
    rw [hpi] at h
    cases hgi : Puzzle.init (goalBoard size) <;> (rw [hgi] at h; simp at h)
  | some p =>
    rw [hpi] at h
    cases hgi : Puzzle.init (goalBoard size) with
    | none => rw [hgi] at h; simp at h
    | some g =>
      rw [hgi] at h
      unfold Puzzle.init at hpi hgi
      cases hfb : findBlankAux 0 b with
      | none => rw [hfb] at hpi; simp at hpi
      | some bp =>
        obtain ⟨br, bc⟩ := bp
        rw [hfb] at hpi
        simp only [Option.some.injEq] at hpi
        cases hfg : findBlankAux 0 (goalBoard size) with
        | none => rw [hfg] at hgi; simp at hgi
        | some gp =>
          obtain ⟨gr, gc⟩ := gp
          rw [hfg] at hgi
          simp only [Option.some.injEq] at hgi
          obtain ⟨h0, h1, h2, row0, hrow0, h3⟩ := findBlankAux_bounds b 0 hfb
          obtain ⟨hblen, hbrows⟩ := hwf
          have hbl : ((b.length : Nat) : Int) = (size : Int) := by
            exact_mod_cast hblen
          have hrowlen : (row0.length : Int) = (size : Int) := by
            rw [hbrows row0 hrow0]
          have hbnil : b ≠ [] := by
            intro hb
            rw [hb] at hblen
            simp at hblen
            omega
          have hcols : ((b.headD []).length : Int) = (size : Int) := by
            cases b with
            | nil => exact absurd rfl hbnil
            | cons r rest =>
              simp only [List.headD_cons]
              rw [hbrows r (List.mem_cons_self r rest)]
          have hInvP : StratInv size size b (br, bc) p := by
            rw [← hpi]
            unfold StratInv
            dsimp only
            refine ⟨hbl, hcols, h0, ?_, h2, ?_, rfl⟩
            · push_cast at h1
              push_cast at hbl
              omega
            · omega
          have hmoves0 : p.coord_moves = [] := by
            rw [← hpi]
          dsimp only at h
          cases hsr : solve_puzzle_strategically fuel p g with
          | fuelOut => rw [hsr] at h; simp at h
          | failed pf => rw [hsr] at h; simp at h
          | ok q mv' =>
            rw [hsr] at h
            simp only [HumanOutcome.moves.injEq] at h
            subst h
            obtain ⟨bp', hbp'⟩ := solve_strat_replay fuel hInvP hmoves0 hsr
            have hgm : g.matrix = goalBoard size := by
              rw [← hgi]
            refine ⟨(br, bc), bp', rfl, ?_⟩
            rw [hbp', hgm]

/-! ## Replay validity of the priority-search solvers -/

theorem validNode_neighbors {size : Nat} {m₀ : Matrix} {p₀ : Int × Int}
    {n : ANode} (hv : ValidNode size m₀ p₀ n) :
    ∀ nb ∈ _get_neighbors size n, ValidNode size m₀ p₀ nb := by
  intro nb hnb
  unfold _get_neighbors at hnb
  simp only [List.mem_filterMap] at hnb
  obtain ⟨d, hd, hnb⟩ := hnb
  rw [Option.ite_none_right_eq_some] at hnb
  obtain ⟨⟨hb1, hb2, hb3, hb4⟩, hnb⟩ := hnb
  simp only [Option.some.injEq] at hnb
  subst hnb
  obtain ⟨hrep, hwf, ⟨hi1, hi2, hi3, hi4⟩, hz⟩ := hv
  have hadj : adjacent (n.empty_pos.1 + d.1, n.empty_pos.2 + d.2)
      n.empty_pos := by
    simp only [directions, List.mem_cons, List.not_mem_nil, or_false] at hd
    rcases hd with rfl | rfl | rfl | rfl <;> (unfold adjacent; dsimp only; omega)
  have hwf1 := WFMat_setCell hwf n.empty_pos.1 n.empty_pos.2
    (getCell n.board (n.empty_pos.1 + d.1) (n.empty_pos.2 + d.2))
  have hwf2 := WFMat_setCell hwf1 (n.empty_pos.1 + d.1)
    (n.empty_pos.2 + d.2) 0
  refine ⟨?_, hwf2, ⟨hb1, hb2, hb3, hb4⟩, ?_⟩
  · show replay (size : Int) (size : Int) m₀ p₀
      (_reconstruct_path n ++ [(n.empty_pos.1 + d.1, n.empty_pos.2 + d.2)]) = _
    rw [replay_snoc, hrep]
    show applyMove size size n.board n.empty_pos
      (n.empty_pos.1 + d.1, n.empty_pos.2 + d.2) = _
    unfold applyMove
    rw [if_pos ⟨hb1, hb2, hb3, hb4, hadj⟩]
    unfold swapCells
    rw [hz]
    rfl
  · show getCell (setCell _ (n.empty_pos.1 + d.1) (n.empty_pos.2 + d.2) 0)
      (n.empty_pos.1 + d.1) (n.empty_pos.2 + d.2) = 0
    rw [getCell_setCell hwf1 0 hb1 hb2 hb3 hb4 hb1 hb2 hb3 hb4,
      if_pos ⟨rfl, rfl⟩]

theorem expandFold_valid {size : Nat} {m₀ : Matrix} {p₀ : Int × Int}
    (closed : List Matrix) :
    ∀ (nbs : List ANode) (acc : List (Matrix × Nat) × List ANode),
      (∀ x ∈ acc.2, ValidNode size m₀ p₀ x) →
      (∀ x ∈ nbs, ValidNode size m₀ p₀ x) →
      ∀ x ∈ (nbs.foldl (expandNeighbor closed) acc).2,
        ValidNode size m₀ p₀ x := by
  intro nbs
  induction nbs with
  | nil =>
    intro acc hacc _ x hx
    exact hacc x hx
  | cons nb rest ih =>
    intro acc hacc hnbs x hx
    simp only [List.foldl_cons] at hx
    refine ih _ ?_ (fun y hy => hnbs y (List.mem_cons_of_mem _ hy)) x hx
    intro y hy
    unfold expandNeighbor at hy
    split at hy
    · exact hacc y hy
    · split at hy
      · split at hy
        · rcases heappush_subset _ _ _ y hy with h | h
          · exact hacc y h
          · exact h ▸ hnbs nb (List.mem_cons_self _ _)
        · exact hacc y hy
      · rcases heappush_subset _ _ _ y hy with h | h
        · exact hacc y h
        · exact h ▸ hnbs nb (List.mem_cons_self _ _)

theorem solveLoop_path {size : Nat} {timeHit : Nat → Bool} {m₀ : Matrix}
    {p₀ : Int × Int} :
    ∀ (fuel : Nat) (open_set : List ANode) (closed : List Matrix)
      (bg : List (Matrix × Nat)) (k : Nat) {mv : List (Int × Int)},
      (∀ x ∈ open_set, ValidNode size m₀ p₀ x) →
      solveLoop size timeHit fuel open_set closed bg k = .path mv →
      ∃ bp, replay size size m₀ p₀ mv = some (goalBoard size, bp) := by
  intro fuel
  induction fuel with
  | zero =>
    intro open_set closed bg k mv _ h
    simp [solveLoop] at h
  | succ fuel ih =>
    intro open_set closed bg k mv hvalid h
    unfold solveLoop at h
    split at h
    · simp at h
    · split at h
      · simp at h
      · split at h
        · simp at h
        · rename_i current opened hpop
          obtain ⟨hcur, hrest⟩ := heappop_mem _ _ _ _ hpop
          have hvc := hvalid current hcur
          split at h
          · exact ih _ _ _ _ (fun x hx => hvalid x (hrest x hx)) h
          · split at h
            · rename_i hgoal
              simp only [AResult.path.injEq] at h
              subst h
              obtain ⟨hrep, hwf, _, _⟩ := hvc
              exact ⟨current.empty_pos,
                by rw [hrep, _is_goal_eq_goalBoard hwf hgoal]⟩
            · refine ih _ _ _ _ ?_ h
              exact expandFold_valid _ _ _
                (fun x hx => hvalid x (hrest x hx))
                (validNode_neighbors hvc)

/-- The A* half of claim C1. -/
theorem astar_solve_replay (size : Nat) (timeHit : Nat → Bool) (fuel : Nat)
    (b : Matrix) (pos : Int × Int) (mv : List (Int × Int))
    (hwf : WFMat size size b) (hin : inBounds (size : Int) pos)
    (hz : getCell b pos.1 pos.2 = 0)
    (h : AStarSolver.solve size timeHit fuel b pos = .path mv) :
    ∃ bp, replay size size b pos mv = some (goalBoard size, bp) := by
  unfold AStarSolver.solve at h
  dsimp only at h
  rw [heappush_nil] at h
  refine solveLoop_path fuel _ _ _ _ ?_ h
  intro x hx
  simp only [List.mem_singleton] at hx
  subst hx
  exact ⟨rfl, hwf, hin, hz⟩

theorem bfsFold_valid {size : Nat} {m₀ : Matrix} {p₀ : Int × Int}
    (closed : List Matrix) :
    ∀ (nbs : List ANode) (os : List ANode),
      (∀ x ∈ os, ValidNode size m₀ p₀ x) →
      (∀ x ∈ nbs, ValidNode size m₀ p₀ x) →
      ∀ x ∈ nbs.foldl (fun os nb => if nb.board ∈ closed then os
          else heappush ANode.ltGreedy os nb) os,
        ValidNode size m₀ p₀ x := by
  intro nbs
  induction nbs with
  | nil =>
    intro os hos _ x hx
    exact hos x hx
  | cons nb rest ih =>
    intro os hos hnbs x hx
    simp only [List.foldl_cons] at hx
    refine ih _ ?_ (fun y hy => hnbs y (List.mem_cons_of_mem _ hy)) x hx
    intro y hy
    split at hy
    · exact hos y hy
    · rcases heappush_subset _ _ _ y hy with h | h
      · exact hos y h
      · exact h ▸ hnbs nb (List.mem_cons_self _ _)

theorem bfsLoop_path {size : Nat} {timeHit : Nat → Bool} {m₀ : Matrix}
    {p₀ : Int × Int} :
    ∀ (fuel : Nat) (open_set : List ANode) (closed : List Matrix)
      (k : Nat) {mv : List (Int × Int)},
      (∀ x ∈ open_set, ValidNode size m₀ p₀ x) →
      bfsLoop size timeHit fuel open_set closed k = .path mv →
      ∃ bp, replay size size m₀ p₀ mv = some (goalBoard size, bp) := by
  intro fuel
  induction fuel with
  | zero =>
    intro open_set closed k mv _ h
    simp [bfsLoop] at h
  | succ fuel ih =>
    intro open_set closed k mv hvalid h
    unfold bfsLoop at h
    split at h
    · simp at h
    · split at h
      · simp at h
      · split at h
        · simp at h
        · rename_i current opened hpop
          obtain ⟨hcur, hrest⟩ := heappop_mem _ _ _ _ hpop
          have hvc := hvalid current hcur
          split at h
          · exact ih _ _ _ (fun x hx => hvalid x (hrest x hx)) h
          · split at h
            · rename_i hgoal
              simp only [AResult.path.injEq] at h
              subst h
              obtain ⟨hrep, hwf, _, _⟩ := hvc
              exact ⟨current.empty_pos,
                by rw [hrep, _is_goal_eq_goalBoard hwf hgoal]⟩
            · refine ih _ _ _ ?_ h
              exact bfsFold_valid _ _ _
                (fun x hx => hvalid x (hrest x hx))
                (validNode_neighbors hvc)

/-- The greedy best-first half of claim C1. -/
theorem bfs_solve_replay (size : Nat) (timeHit : Nat → Bool) (fuel : Nat)
    (b : Matrix) (pos : Int × Int) (mv : List (Int × Int))
    (hwf : WFMat size size b) (hin : inBounds (size : Int) pos)
    (hz : getCell b pos.1 pos.2 = 0)
    (h : solve_bfs size timeHit fuel b pos = .path mv) :
    ∃ bp, replay size size b pos mv = some (goalBoard size, bp) := by
  unfold solve_bfs at h
  dsimp only at h
  rw [heappush_nil] at h
  refine bfsLoop_path fuel _ _ _ ?_ h
  intro x hx
  simp only [List.mem_singleton] at hx
  subst hx
  exact ⟨rfl, hwf, hin, hz⟩

/-! ## Binary-heap correctness of the `heapq` embedding -/

theorem getD_indep {l : List α} {i : Nat} (h : i < l.length) (a b : α) :
    l.getD i a = l.getD i b := by
  rw [List.getD_eq_getElem?_getD, List.getElem?_eq_getElem h,
    List.getD_eq_getElem?_getD, List.getElem?_eq_getElem h]
  rfl

theorem getD_set_self {l : List α} {m : Nat} (h : m < l.length) (a d : α) :
    (l.set m a).getD m d = a := by
  rw [List.getD_eq_getElem?_getD, List.getElem?_set_self (by omega)]
  rfl

theorem getD_set_ne {l : List α} {m i : Nat} (h : m ≠ i) (a d : α) :
    (l.set m a).getD i d = l.getD i d := by
  rw [List.getD_eq_getElem?_getD, List.getElem?_set_ne h,
    ← List.getD_eq_getElem?_getD]

theorem count_set [DecidableEq α] (l : List α) (n : Nat) (a b d : α)
    (h : n < l.length) :
    (l.set n a).count b + (if l.getD n d = b then 1 else 0) =
      l.count b + (if a = b then 1 else 0) := by
  induction l generalizing n with
  | nil => simp at h
  | cons x t ih =>
    cases n with
    | zero =>
      simp only [List.set_cons_zero, List.getD_cons_zero, List.count_cons,
        beq_iff_eq]
      split <;> split <;> omega
    | succ n =>
      simp only [List.set_cons_succ, List.getD_cons_succ, List.count_cons,
        beq_iff_eq]
      have hn : n < t.length := by simpa using h
      have := ih n hn
      split <;> omega

theorem set_set_perm [DecidableEq α] (l : List α) (p q : Nat) (x d : α)
    (hp : p < l.length) (hq : q < l.length) (hne : p ≠ q) :
    List.Perm ((l.set p (l.getD q d)).set q x) (l.set p x) := by
  rw [List.perm_iff_count]
  intro b
  have h1 := count_set l p (l.getD q d) b d hp
  have h2 := count_set (l.set p (l.getD q d)) q x b d (by simpa using hq)
  have h3 := count_set l p x b d hp
  have h4 : (l.set p (l.getD q d)).getD q d = l.getD q d :=
    getD_set_ne hne _ _
  rw [h4] at h2
  split_ifs at h1 h2 h3 <;> omega

theorem set_append_last (l : List α) (x y : α) :
    (l ++ [x]).set l.length y = l ++ [y] := by
  induction l with
  | nil => rfl
  | cons a t ih => simpa using ih

/-- Python heap invariant: every child is at least its parent with
respect to the key. -/
def HeapInvD (key : α → Nat) (d : α) (l : List α) : Prop :=
  ∀ i c, (c = 2*i+1 ∨ c = 2*i+2) → c < l.length →
    key (l.getD i d) ≤ key (l.getD c d)

theorem heapInvD_nil (key : α → Nat) (d : α) : HeapInvD key d [] := by
  intro i c _ hc
  simp at hc

theorem heapInvD_singleton (key : α → Nat) (d : α) (x : α) :
    HeapInvD key d [x] := by
  intro i c hic hc
  simp only [List.length_cons, List.length_nil] at hc
  omega

theorem heapInvD_root_le (key : α → Nat) (d : α) {l : List α}
    (h : HeapInvD key d l) :
    ∀ k, k < l.length → key (l.getD 0 d) ≤ key (l.getD k d) := by
  intro k
  induction k using Nat.strong_induction_on with
  | _ k ih =>
    intro hk
    match k with
    | 0 => exact le_refl _
    | k + 1 =>
      have hpar : k + 1 = 2*((k+1-1)/2)+1 ∨ k + 1 = 2*((k+1-1)/2)+2 := by
        omega
      have h1 := h ((k+1-1)/2) (k+1) hpar hk
      have h2 := ih ((k+1-1)/2) (by omega) (by omega)
      omega

/-- Correctness of the `heapq._siftdown` loop with `startpos = 0` (as
in every call site): given a list whose heap order holds at every pair
not having the hole `pos` as the child, whose hole's children are at
least `x` and at least the hole's parent, the result is a heap and is
a permutation of the original list with `x` written at the hole. -/
theorem siftdownAux_heap [DecidableEq α] (lt : α → α → Bool) (key : α → Nat) (d : α)
    (hkey : ∀ a b, lt a b = decide (key a < key b)) (x : α) :
    ∀ (fuel pos : Nat) (heap : List α),
    pos < heap.length → pos < fuel →
    (∀ i c, (c = 2*i+1 ∨ c = 2*i+2) → c < heap.length → c ≠ pos →
      key (heap.getD i d) ≤ key (heap.getD c d)) →
    (∀ c, (c = 2*pos+1 ∨ c = 2*pos+2) → c < heap.length →
      key x ≤ key (heap.getD c d)) →
    (∀ c, (c = 2*pos+1 ∨ c = 2*pos+2) → c < heap.length → 0 < pos →
      key (heap.getD ((pos-1)/2) d) ≤ key (heap.getD c d)) →
    HeapInvD key d (siftdownAux lt 0 x fuel pos heap) ∧
    List.Perm (siftdownAux lt 0 x fuel pos heap) (heap.set pos x) := by
  intro fuel
  induction fuel with
  | zero => intro pos heap _ hf; omega
  | succ fuel ih =>
    intro pos heap hpos hf hC hD hE
    unfold siftdownAux
    by_cases h0 : 0 < pos
    · rw [if_pos h0]
      dsimp only
      rw [getD_indep (show (pos-1)/2 < heap.length by omega) x d]
      by_cases hlt : lt x (heap.getD ((pos-1)/2) d) = true
      · rw [if_pos hlt]
        rw [hkey, decide_eq_true_eq] at hlt
        set pp := (pos-1)/2 with hpp
        have hplen : pp < heap.length := by omega
        have hlen : (heap.set pos (heap.getD pp d)).length = heap.length := by
          simp
        refine And.imp (fun hv => hv)
          (fun hperm =>
            hperm.trans (set_set_perm heap pos pp x d hpos hplen (by omega)))
          (ih pp (heap.set pos (heap.getD pp d)) (by omega) (by omega)
            ?_ ?_ ?_)
        · intro i c hic hc hcp
          rw [hlen] at hc
          by_cases hcpos : c = pos
          · have hi : i = pp := by omega
            rw [hcpos, hi, getD_set_self hpos,
              getD_set_ne (show pos ≠ pp by omega)]
          · rw [getD_set_ne (show pos ≠ c by omega)]
            by_cases hipos : i = pos
            · rw [hipos] at hic
              rw [hipos, getD_set_self hpos]
              exact hE c hic hc h0
            · rw [getD_set_ne (show pos ≠ i by omega)]
              exact hC i c hic hc hcpos
        · intro c hc hclen
          rw [hlen] at hclen
          by_cases hcpos : c = pos
          · rw [hcpos, getD_set_self hpos]
            omega
          · rw [getD_set_ne (show pos ≠ c by omega)]
            have hcc : key (heap.getD pp d) ≤ key (heap.getD c d) :=
              hC pp c (by omega) hclen hcpos
            omega
        · intro c hc hclen hpp0
          rw [hlen] at hclen
          rw [getD_set_ne (show pos ≠ (pp-1)/2 by omega)]
          have hgpp : key (heap.getD ((pp-1)/2) d) ≤ key (heap.getD pp d) :=
            hC ((pp-1)/2) pp (by omega) hplen (by omega)
          by_cases hcpos : c = pos
          · rw [hcpos, getD_set_self hpos]
            exact hgpp
          · rw [getD_set_ne (show pos ≠ c by omega)]
            have : key (heap.getD pp d) ≤ key (heap.getD c d) :=
              hC pp c (by omega) hclen hcpos
            omega
      · rw [if_neg hlt]
        rw [hkey] at hlt
        simp only [decide_eq_true_eq] at hlt
        push_neg at hlt
        refine ⟨?_, List.Perm.refl _⟩
        intro i c hic hc
        rw [List.length_set] at hc
        by_cases hcpos : c = pos
        · have hi : i = (pos-1)/2 := by omega
          rw [hcpos, hi, getD_set_self hpos,
            getD_set_ne (show pos ≠ (pos-1)/2 by omega)]
          exact hlt
        · rw [getD_set_ne (show pos ≠ c by omega)]
          by_cases hipos : i = pos
          · rw [hipos] at hic
            rw [hipos, getD_set_self hpos]
            exact hD c hic hc
          · rw [getD_set_ne (show pos ≠ i by omega)]
            exact hC i c hic hc hcpos
    · rw [if_neg h0]
      have hp0 : pos = 0 := by omega
      subst hp0
      refine ⟨?_, List.Perm.refl _⟩
      intro i c hic hc
      rw [List.length_set] at hc
      have hcne : c ≠ 0 := by omega
      rw [getD_set_ne (Ne.symm hcne)]
      by_cases hipos : i = 0
      · subst hipos
        rw [getD_set_self hpos]
        exact hD c hic hc
      · rw [getD_set_ne (Ne.symm hipos)]
        exact hC i c hic hc hcne

/-- One descending step of the `_siftup` loop: moving the selected
child `mc` into the hole keeps the loop invariants. -/
theorem siftupAux_step [DecidableEq α] (lt : α → α → Bool) (key : α → Nat) (d : α)
    (x : α) (fuel pos : Nat) (heap : List α) (endpos : Nat)
    (hend : endpos = heap.length) (hpos : pos < heap.length)
    (hf : heap.length ≤ fuel + 1 + pos)
    (hC2 : ∀ i c, (c = 2*i+1 ∨ c = 2*i+2) → c < heap.length → i ≠ pos →
      c ≠ pos → key (heap.getD i d) ≤ key (heap.getD c d))
    (hH : ∀ c, (c = 2*pos+1 ∨ c = 2*pos+2) → c < heap.length → 0 < pos →
      key (heap.getD ((pos-1)/2) d) ≤ key (heap.getD c d))
    (ih : ∀ (pos : Nat) (heap : List α) (endpos : Nat),
      endpos = heap.length → pos < heap.length → heap.length ≤ fuel + pos →
      (∀ i c, (c = 2*i+1 ∨ c = 2*i+2) → c < heap.length → i ≠ pos →
        c ≠ pos → key (heap.getD i d) ≤ key (heap.getD c d)) →
      (∀ c, (c = 2*pos+1 ∨ c = 2*pos+2) → c < heap.length → 0 < pos →
        key (heap.getD ((pos-1)/2) d) ≤ key (heap.getD c d)) →
      HeapInvD key d (siftupAux lt endpos x 0 fuel pos heap) ∧
      List.Perm (siftupAux lt endpos x 0 fuel pos heap) (heap.set pos x))
    (mc : Nat) (hmcc : mc = 2*pos+1 ∨ mc = 2*pos+2)
    (hmclen : mc < heap.length)
    (hmcsel : ∀ c, (c = 2*pos+1 ∨ c = 2*pos+2) → c < heap.length →
      key (heap.getD mc d) ≤ key (heap.getD c d)) :
    HeapInvD key d
      (siftupAux lt endpos x 0 fuel mc (heap.set pos (heap.getD mc x))) ∧
    List.Perm
      (siftupAux lt endpos x 0 fuel mc (heap.set pos (heap.getD mc x)))
      (heap.set pos x) := by
  rw [getD_indep hmclen x d]
  have hlen : (heap.set pos (heap.getD mc d)).length = heap.length := by simp
  refine And.imp (fun hv => hv)
    (fun hperm =>
      hperm.trans (set_set_perm heap pos mc x d hpos hmclen (by omega)))
    (ih mc (heap.set pos (heap.getD mc d)) endpos
      (by rw [hlen, hend]) (by omega) (by omega) ?_ ?_)
  · intro i c hic hc hip hcp
    rw [hlen] at hc
    by_cases hipos : i = pos
    · rw [hipos] at hic
      rw [hipos, getD_set_self hpos, getD_set_ne (show pos ≠ c by omega)]
      exact hmcsel c hic hc
    · by_cases hcpos : c = pos
      · have hi : i = (pos-1)/2 := by omega
        rw [hcpos, hi, getD_set_self hpos,
          getD_set_ne (show pos ≠ (pos-1)/2 by omega)]
        exact hH mc hmcc hmclen (by omega)
      · rw [getD_set_ne (show pos ≠ c by omega),
          getD_set_ne (show pos ≠ i by omega)]
        exact hC2 i c hic hc hipos hcpos
  · intro c hc hclen hmc0
    rw [hlen] at hclen
    have hpmc : (mc-1)/2 = pos := by omega
    rw [hpmc, getD_set_self hpos, getD_set_ne (show pos ≠ c by omega)]
    exact hC2 mc c hc hclen (by omega) (by omega)

/-- Correctness of the `heapq._siftup` loop with `startpos = 0` (as in
every call site): heap order at every pair not involving the hole
`pos`, hole's children at least the hole's parent; the result is a
heap and a permutation of the list with `x` written at the hole. -/
theorem siftupAux_heap [DecidableEq α] (lt : α → α → Bool) (key : α → Nat) (d : α)
    (hkey : ∀ a b, lt a b = decide (key a < key b)) (x : α) :
    ∀ (fuel pos : Nat) (heap : List α) (endpos : Nat),
    endpos = heap.length → pos < heap.length → heap.length ≤ fuel + pos →
    (∀ i c, (c = 2*i+1 ∨ c = 2*i+2) → c < heap.length → i ≠ pos →
      c ≠ pos → key (heap.getD i d) ≤ key (heap.getD c d)) →
    (∀ c, (c = 2*pos+1 ∨ c = 2*pos+2) → c < heap.length → 0 < pos →
      key (heap.getD ((pos-1)/2) d) ≤ key (heap.getD c d)) →
    HeapInvD key d (siftupAux lt endpos x 0 fuel pos heap) ∧
    List.Perm (siftupAux lt endpos x 0 fuel pos heap) (heap.set pos x) := by
  intro fuel
  induction fuel with
  | zero => intro pos heap endpos _ hpos hf; omega
  | succ fuel ih =>
    intro pos heap endpos hend hpos hf hC2 hH
    unfold siftupAux
    dsimp only
    by_cases hchild : 2 * pos + 1 < endpos
    · rw [if_pos hchild]
      by_cases hsel : 2 * pos + 1 + 1 < endpos ∧
          ¬ lt (heap.getD (2 * pos + 1) x) (heap.getD (2 * pos + 1 + 1) x)
            = true
      · rw [if_pos hsel]
        obtain ⟨hrlt, hno⟩ := hsel
        rw [getD_indep (show 2*pos+1 < heap.length by omega) x d,
          getD_indep (show 2*pos+1+1 < heap.length by omega) x d] at hno
        rw [hkey] at hno
        simp only [decide_eq_true_eq] at hno
        push_neg at hno
        have hmcsel : ∀ c, (c = 2*pos+1 ∨ c = 2*pos+2) → c < heap.length →
            key (heap.getD (2*pos+1+1) d) ≤ key (heap.getD c d) := by
          intro c hc hcl
          rcases hc with hc | hc
          · subst hc; omega
          · subst hc
            have he : (2:Nat)*pos+1+1 = 2*pos+2 := by omega
            rw [he]
        exact siftupAux_step lt key d x fuel pos heap endpos hend hpos
          (by omega) hC2 hH ih (2*pos+1+1) (by omega) (by omega) hmcsel
      · rw [if_neg hsel]
        rw [not_and_or] at hsel
        have hmcsel : ∀ c, (c = 2*pos+1 ∨ c = 2*pos+2) → c < heap.length →
            key (heap.getD (2*pos+1) d) ≤ key (heap.getD c d) := by
          intro c hc hcl
          rcases hc with hc | hc
          · subst hc
            exact le_refl _
          · subst hc
            rcases hsel with hsel | hsel
            · omega
            · rw [not_not] at hsel
              rw [getD_indep (show 2*pos+1 < heap.length by omega) x d,
                getD_indep (show 2*pos+1+1 < heap.length by omega) x d]
                at hsel
              rw [hkey] at hsel
              simp only [decide_eq_true_eq] at hsel
              have he : (2:Nat)*pos+1+1 = 2*pos+2 := by omega
              rw [he] at hsel
              omega
        exact siftupAux_step lt key d x fuel pos heap endpos hend hpos
          (by omega) hC2 hH ih (2*pos+1) (by omega) (by omega) hmcsel
    · rw [if_neg hchild]
      have hlen : (heap.set pos x).length = heap.length := by simp
      refine And.imp (fun hv => hv)
        (fun hperm => by rw [List.set_set] at hperm; exact hperm)
        (siftdownAux_heap lt key d hkey x (pos + 1) pos
          (heap.set pos x) (by omega) (by omega) ?_ ?_ ?_)
      · intro i c hic hc hcp
        rw [hlen] at hc
        by_cases hipos : i = pos
        · omega
        · rw [getD_set_ne (show pos ≠ c by omega),
            getD_set_ne (show pos ≠ i by omega)]
          exact hC2 i c hic hc hipos hcp
      · intro c hc hclen
        rw [hlen] at hclen
        omega
      · intro c hc hclen _
        rw [hlen] at hclen
        omega

/-- `heappush` preserves the heap invariant and adds the item. -/
theorem heappush_heap [DecidableEq α] (lt : α → α → Bool) (key : α → Nat) (d : α)
    (hkey : ∀ a b, lt a b = decide (key a < key b)) (heap : List α) (x : α)
    (h : HeapInvD key d heap) :
    HeapInvD key d (heappush lt heap x) ∧
    List.Perm (heappush lt heap x) (x :: heap) := by
  unfold heappush
  have hlen : (heap ++ [x]).length = heap.length + 1 := by simp
  refine And.imp (fun hv => hv)
    (fun hperm => hperm.trans
      (by rw [set_append_last]; exact List.perm_append_singleton x heap))
    (siftdownAux_heap lt key d hkey x
      (heap.length + 1) heap.length (heap ++ [x]) (by simp) (by omega)
      ?_ ?_ ?_)
  · intro i c hic hc hcp
    rw [hlen] at hc
    have hclt : c < heap.length := by omega
    have hilt : i < heap.length := by omega
    rw [List.getD_append _ _ _ _ hclt, List.getD_append _ _ _ _ hilt]
    exact h i c hic hclt
  · intro c hc hclen
    rw [hlen] at hclen
    omega
  · intro c hc hclen _
    rw [hlen] at hclen
    omega
/-- `heappop` on a heap returns a minimal element, keeps the heap
invariant, and removes exactly the returned element. -/
theorem heappop_heap [DecidableEq α] (lt : α → α → Bool) (key : α → Nat)
    (d : α) (hkey : ∀ a b, lt a b = decide (key a < key b))
    (heap : List α) (h : HeapInvD key d heap) (m : α) (rest : List α)
    (hpop : heappop lt heap = some (m, rest)) :
    (∀ y ∈ heap, key m ≤ key y) ∧ HeapInvD key d rest ∧
    List.Perm heap (m :: rest) := by
  unfold heappop at hpop
  cases hl : heap.getLast? with
  | none => rw [hl] at hpop; simp at hpop
  | some lastelt =>
    rw [hl] at hpop
    have hne : heap ≠ [] := by
      intro he; rw [he] at hl; simp at hl
    have hlast : heap.getLast hne = lastelt := by
      have h2 := List.getLast?_eq_getLast heap hne
      rw [hl] at h2
      exact (Option.some.inj h2).symm
    have hsplit : heap.dropLast ++ [lastelt] = heap := by
      rw [← hlast]
      exact List.dropLast_append_getLast hne
    dsimp only at hpop
    split at hpop
    · rename_i hemp
      simp only [Option.some.injEq, Prod.mk.injEq] at hpop
      obtain ⟨hm, hr⟩ := hpop
      subst hm
      subst hr
      have hd0 : heap.dropLast = [] := List.isEmpty_iff.mp hemp
      have h1 : heap = [lastelt] := by rw [← hsplit, hd0]; rfl
      subst h1
      refine ⟨?_, ?_, ?_⟩
      · intro y hy
        simp only [List.mem_singleton] at hy
        subst hy
        exact le_refl _
      · rw [hd0]
        exact heapInvD_nil key d
      · rw [hd0]
    · rename_i hemp
      simp only [Option.some.injEq, Prod.mk.injEq] at hpop
      obtain ⟨hm, hr⟩ := hpop
      have hdne : heap.dropLast ≠ [] := by
        intro he; rw [he] at hemp; simp at hemp
      have hdlen : 0 < heap.dropLast.length := List.length_pos.mpr hdne
      have hlpos : 0 < heap.length := List.length_pos.mpr hne
      have hdlt : heap.dropLast.length < heap.length := by
        rw [List.length_dropLast]
        omega
      have hgdrop : ∀ j, j < heap.dropLast.length →
          heap.dropLast.getD j d = heap.getD j d := by
        intro j hj
        conv_rhs => rw [← hsplit]
        rw [List.getD_append _ _ _ _ hj]
      have hm0 : m = heap.getD 0 d := by
        rw [← hm]
        cases hd : heap.dropLast with
        | nil => exact absurd hd hdne
        | cons a t =>
          have h2 : heap.dropLast.getD 0 d = heap.getD 0 d :=
            hgdrop 0 (by omega)
          rw [hd] at h2
          exact h2
      have hmin : ∀ y ∈ heap, key m ≤ key y := by
        intro y hy
        obtain ⟨k, hk, hky⟩ := List.mem_iff_getElem.mp hy
        have hyk : heap.getD k d = y := by
          rw [List.getD_eq_getElem?_getD, List.getElem?_eq_getElem hk, hky]
          rfl
        rw [hm0, ← hyk]
        exact heapInvD_root_le key d h k hk
      have hslen : (heap.dropLast.set 0 lastelt).length =
          heap.dropLast.length := by simp
      have hC2 : ∀ i c, (c = 2*i+1 ∨ c = 2*i+2) →
          c < (heap.dropLast.set 0 lastelt).length → i ≠ 0 → c ≠ 0 →
          key ((heap.dropLast.set 0 lastelt).getD i d) ≤
            key ((heap.dropLast.set 0 lastelt).getD c d) := by
        intro i c hic hc hip hcp
        rw [hslen] at hc
        rw [getD_set_ne (Ne.symm hcp), getD_set_ne (Ne.symm hip),
          hgdrop c hc, hgdrop i (by omega)]
        exact h i c hic (by omega)
      have hH : ∀ c, (c = 2*0+1 ∨ c = 2*0+2) →
          c < (heap.dropLast.set 0 lastelt).length → 0 < 0 →
          key ((heap.dropLast.set 0 lastelt).getD ((0-1)/2) d) ≤
            key ((heap.dropLast.set 0 lastelt).getD c d) := by
        intro c hc hcl h0
        omega
      obtain ⟨hinv, hperm⟩ := siftupAux_heap lt key d hkey lastelt
        ((heap.dropLast.set 0 lastelt).length + 1) 0
        (heap.dropLast.set 0 lastelt)
        (heap.dropLast.set 0 lastelt).length rfl
        (by rw [hslen]; omega) (by omega) hC2 hH
      have hrrest : rest = siftupAux lt
          (heap.dropLast.set 0 lastelt).length lastelt 0
          ((heap.dropLast.set 0 lastelt).length + 1) 0
          (heap.dropLast.set 0 lastelt) := by
        rw [← hr]
        rfl
      rw [List.set_set] at hperm
      refine ⟨hmin, ?_, ?_⟩
      · rw [hrrest]
        exact hinv
      · -- count argument: heap ~ m :: rest
        rw [List.perm_iff_count]
        intro b
        have hcnt : rest.count b = (heap.dropLast.set 0 lastelt).count b := by
          rw [hrrest]
          exact hperm.count_eq b
        have hc1 : (m :: rest).count b =
            rest.count b + (if m = b then 1 else 0) := by
          simp only [List.count_cons, beq_iff_eq]
        have hc2 := count_set heap.dropLast 0 lastelt b d hdlen
        have hc3 : heap.count b =
            heap.dropLast.count b + (if lastelt = b then 1 else 0) := by
          conv_lhs => rw [← hsplit]
          simp only [List.count_append, List.count_cons, List.count_nil,
            beq_iff_eq]
          omega
        have hc4 : heap.getD 0 d = heap.dropLast.getD 0 d :=
          (hgdrop 0 (by omega)).symm
        have hif : (if m = b then (1:Nat) else 0) =
            (if heap.dropLast.getD 0 d = b then 1 else 0) := by
          rw [hm0, hc4]
        rw [hcnt] at hc1
        split_ifs at hc1 hc2 hc3 hif <;> omega

/-! ## Manhattan distance as a sum over cells -/

theorem foldl_add_eq (l : List β) (f : β → Nat) :
    ∀ init : Nat,
    l.foldl (fun acc x => acc + f x) init = init + (l.map f).sum := by
  induction l with
  | nil => intro init; simp
  | cons a t ih =>
    intro init
    rw [List.foldl_cons, ih, List.map_cons, List.sum_cons]
    omega

/-- Contribution of one cell to `manhattan_distance`. -/
def mTerm (size : Nat) (board : Matrix) (i j : Nat) : Nat :=
  if getCell board i j ≠ 0 then
    (((i : Int)) - ((getCell board i j - 1) / size : Nat)).natAbs +
      (((j : Int)) - ((getCell board i j - 1) % size : Nat)).natAbs
  else 0

/-- Row-major sum of a per-cell function over the `n × n` grid. -/
def gridSum (n : Nat) (h : Nat → Nat → Nat) : Nat :=
  ((List.range n).map (fun i => ((List.range n).map (h i)).sum)).sum

theorem manhattan_eq_sum (board : Matrix) (size : Nat) :
    manhattan_distance board size =
      gridSum size (fun i j => mTerm size board i j) := by
  have hinner : ∀ (i : Nat) (acc : Nat), (List.range size).foldl (fun acc (j : Nat) =>
        let value := getCell board i j
        if value ≠ 0 then
          let goal_row := (value - 1) / size
          let goal_col := (value - 1) % size
          acc + (((i : Int) - goal_row).natAbs + ((j : Int) - goal_col).natAbs)
        else acc) acc
      = acc + ((List.range size).map (fun j => mTerm size board i j)).sum := by
    intro i acc
    rw [List.foldl_ext _ (fun acc j => acc + mTerm size board i j) acc ?_]
    · exact foldl_add_eq (List.range size) (fun j => mTerm size board i j) acc
    · intro a j hj
      dsimp only
      by_cases hv : getCell board i j ≠ 0
      · rw [if_pos hv]
        simp only [mTerm]
        rw [if_pos hv]
      · rw [if_neg hv]
        simp only [mTerm]
        rw [if_neg hv]
        omega
  unfold manhattan_distance gridSum
  rw [List.foldl_ext _
    (fun acc i => acc + ((List.range size).map (fun j => mTerm size board i j)).sum)
    0 (fun a i _ => hinner i a), foldl_add_eq]
  dsimp only
  omega

theorem listSum_range_eq (n : Nat) (u : Nat → Nat) :
    ((List.range n).map u).sum = ∑ i ∈ Finset.range n, u i := by
  induction n with
  | zero => simp
  | succ k ih =>
    rw [List.range_succ, List.map_append, List.sum_append, ih,
      Finset.sum_range_succ]
    simp

theorem gridSum_two_cells (n : Nat) (f g : Nat → Nat → Nat)
    (p q : Nat × Nat) (hp1 : p.1 < n) (hp2 : p.2 < n) (hq1 : q.1 < n)
    (hq2 : q.2 < n) (hpq : p ≠ q)
    (hfg : ∀ i j, i < n → j < n → (i, j) ≠ p → (i, j) ≠ q → f i j = g i j) :
    gridSum n f + g p.1 p.2 + g q.1 q.2 =
      gridSum n g + f p.1 p.2 + f q.1 q.2 := by
  have hlist : ∀ h : Nat → Nat → Nat, gridSum n h =
      ∑ x ∈ Finset.range n ×ˢ Finset.range n, h x.1 x.2 := by
    intro h
    rw [Finset.sum_product]
    unfold gridSum
    rw [listSum_range_eq]
    refine Finset.sum_congr rfl ?_
    intro i _
    rw [listSum_range_eq]
  have hpmem : p ∈ Finset.range n ×ˢ Finset.range n := by
    rw [Finset.mem_product, Finset.mem_range, Finset.mem_range]
    exact ⟨hp1, hp2⟩
  have hqmem : q ∈ (Finset.range n ×ˢ Finset.range n).erase p :=
    Finset.mem_erase.mpr ⟨fun h => hpq h.symm, by
      rw [Finset.mem_product, Finset.mem_range, Finset.mem_range]
      exact ⟨hq1, hq2⟩⟩
  have hdec : ∀ h : Nat → Nat → Nat,
      (∑ x ∈ Finset.range n ×ˢ Finset.range n, h x.1 x.2) =
        h p.1 p.2 + h q.1 q.2 +
          ∑ x ∈ ((Finset.range n ×ˢ Finset.range n).erase p).erase q,
            h x.1 x.2 := by
    intro h
    rw [← Finset.add_sum_erase _ _ hpmem, ← Finset.add_sum_erase _ _ hqmem]
    omega
  have hcong :
      (∑ x ∈ ((Finset.range n ×ˢ Finset.range n).erase p).erase q, f x.1 x.2)
      = ∑ x ∈ ((Finset.range n ×ˢ Finset.range n).erase p).erase q,
          g x.1 x.2 := by
    refine Finset.sum_congr rfl ?_
    intro x hx
    obtain ⟨hxq, hxp, hxs⟩ :=
      Finset.mem_erase.mp hx |>.imp id (fun h2 => Finset.mem_erase.mp h2)
    rw [Finset.mem_product, Finset.mem_range, Finset.mem_range] at hxs
    exact hfg x.1 x.2 hxs.1 hxs.2 (by simpa using hxp) (by simpa using hxq)
  rw [hlist f, hlist g, hdec f, hdec g, hcong]
  omega

theorem swapCells_WF {size : Nat} {b : Matrix} (hwf : WFMat size size b)
    (r1 c1 r2 c2 : Int) :
    WFMat size size (swapCells b r1 c1 r2 c2) :=
  WFMat_setCell (WFMat_setCell hwf _ _ _) _ _ _

theorem getCell_swapCells {size : Nat} {b : Matrix} (hwf : WFMat size size b)
    {r1 c1 r2 c2 i j : Int}
    (h10 : 0 ≤ r1) (h11 : r1 < (size : Int)) (h12 : 0 ≤ c1)
    (h13 : c1 < (size : Int))
    (h20 : 0 ≤ r2) (h21 : r2 < (size : Int)) (h22 : 0 ≤ c2)
    (h23 : c2 < (size : Int))
    (hi0 : 0 ≤ i) (hi1 : i < (size : Int)) (hj0 : 0 ≤ j)
    (hj1 : j < (size : Int)) :
    getCell (swapCells b r1 c1 r2 c2) i j =
      if i = r2 ∧ j = c2 then getCell b r1 c1
      else if i = r1 ∧ j = c1 then getCell b r2 c2
      else getCell b i j := by
  unfold swapCells
  rw [getCell_setCell (WFMat_setCell hwf _ _ _) _ h20 h21 h22 h23 hi0 hi1
    hj0 hj1]
  by_cases h2 : i = r2 ∧ j = c2
  · rw [if_pos h2, if_pos h2]
  · rw [if_neg h2, if_neg h2,
      getCell_setCell hwf _ h10 h11 h12 h13 hi0 hi1 hj0 hj1]

/-- One legal swap of the blank with an orthogonally adjacent tile
changes the Manhattan distance by at most one, in both directions. -/
theorem manhattan_swap {size : Nat} {b : Matrix} (hwf : WFMat size size b)
    {pr pc mr mc : Int}
    (hp0 : 0 ≤ pr) (hp1 : pr < (size : Int)) (hp2 : 0 ≤ pc)
    (hp3 : pc < (size : Int))
    (hm0 : 0 ≤ mr) (hm1 : mr < (size : Int)) (hm2 : 0 ≤ mc)
    (hm3 : mc < (size : Int))
    (hadj : adjacent (mr, mc) (pr, pc))
    (hz : getCell b pr pc = 0) :
    manhattan_distance (swapCells b pr pc mr mc) size ≤
      manhattan_distance b size + 1 ∧
    manhattan_distance b size ≤
      manhattan_distance (swapCells b pr pc mr mc) size + 1 := by
  unfold adjacent at hadj
  simp only at hadj
  have hne : (pr.toNat, pc.toNat) ≠ (mr.toNat, mc.toNat) := by
    intro h
    rw [Prod.mk.injEq] at h
    omega
  set b2 := swapCells b pr pc mr mc with hb2
  have hother : ∀ i j : Nat, i < size → j < size →
      (i, j) ≠ (pr.toNat, pc.toNat) → (i, j) ≠ (mr.toNat, mc.toNat) →
      mTerm size b2 i j = mTerm size b i j := by
    intro i j hi hj hnp hnm
    have hnp2 : ¬ (i = pr.toNat ∧ j = pc.toNat) :=
      fun hh => hnp (Prod.ext hh.1 hh.2)
    have hnm2 : ¬ (i = mr.toNat ∧ j = mc.toNat) :=
      fun hh => hnm (Prod.ext hh.1 hh.2)
    have hcell : getCell b2 (i : Int) (j : Int) = getCell b (i : Int) (j : Int) := by
      rw [hb2, getCell_swapCells hwf hp0 hp1 hp2 hp3 hm0 hm1 hm2 hm3
        (by omega) (by omega) (by omega) (by omega)]
      rw [if_neg (by omega), if_neg (by omega)]
    unfold mTerm
    rw [hcell]
  have hv2 : getCell b2 (pr.toNat : Int) (pc.toNat : Int) = getCell b mr mc := by
    rw [hb2, getCell_swapCells hwf hp0 hp1 hp2 hp3 hm0 hm1 hm2 hm3
      (by omega) (by omega) (by omega) (by omega)]
    have hc1 : ((pr.toNat : Int) = mr ∧ (pc.toNat : Int) = mc) → False := by
      omega
    rw [if_neg hc1,
      if_pos (by omega : (pr.toNat : Int) = pr ∧ (pc.toNat : Int) = pc)]
  have hz2 : getCell b2 (mr.toNat : Int) (mc.toNat : Int) = 0 := by
    rw [hb2, getCell_swapCells hwf hp0 hp1 hp2 hp3 hm0 hm1 hm2 hm3
      (by omega) (by omega) (by omega) (by omega)]
    rw [if_pos (by omega : (mr.toNat : Int) = mr ∧ (mc.toNat : Int) = mc)]
    exact hz
  have hzp : getCell b (pr.toNat : Int) (pc.toNat : Int) = 0 := by
    rw [show ((pr.toNat : Int)) = pr by omega,
      show ((pc.toNat : Int)) = pc by omega]
    exact hz
  have hvq : getCell b (mr.toNat : Int) (mc.toNat : Int) = getCell b mr mc := by
    rw [show ((mr.toNat : Int)) = mr by omega,
      show ((mc.toNat : Int)) = mc by omega]
  have hkey := gridSum_two_cells size
    (fun i j => mTerm size b2 i j) (fun i j => mTerm size b i j)
    (pr.toNat, pc.toNat) (mr.toNat, mc.toNat)
    (by omega) (by omega) (by omega) (by omega) hne hother
  dsimp only at hkey
  have ht1 : mTerm size b pr.toNat pc.toNat = 0 := by
    unfold mTerm
    rw [if_neg (by rw [hzp]; omega)]
  have ht2 : mTerm size b2 mr.toNat mc.toNat = 0 := by
    unfold mTerm
    rw [if_neg (by rw [hz2]; omega)]
  have hterm : mTerm size b2 pr.toNat pc.toNat ≤ mTerm size b mr.toNat mc.toNat + 1 ∧
      mTerm size b mr.toNat mc.toNat ≤ mTerm size b2 pr.toNat pc.toNat + 1 := by
    unfold mTerm
    rw [hv2, hvq]
    by_cases hv : getCell b mr mc ≠ 0
    · rw [if_pos hv, if_pos hv]
      omega
    · rw [if_neg hv, if_neg hv]
      omega
  rw [manhattan_eq_sum b2 size, manhattan_eq_sum b size]
  omega

/-- An `applyMove` step changes the Manhattan distance by at most one
and preserves well-formedness, the blank-cell invariant and the count
of blank cells. -/
theorem applyMove_post {size : Nat} {b : Matrix} {blank mv : Int × Int}
    {t : Matrix × (Int × Int)}
    (hwf : WFMat size size b) (hin : inBounds (size : Int) blank)
    (hz : getCell b blank.1 blank.2 = 0)
    (h : applyMove size size b blank mv = some t) :
    t.2 = mv ∧ WFMat size size t.1 ∧ inBounds (size : Int) t.2 ∧
    getCell t.1 t.2.1 t.2.2 = 0 ∧
    (manhattan_distance t.1 size ≤ manhattan_distance b size + 1 ∧
      manhattan_distance b size ≤ manhattan_distance t.1 size + 1) := by
  unfold applyMove at h
  split at h
  · rename_i hcond
    obtain ⟨h1, h2, h3, h4, hadj⟩ := hcond
    simp only [Option.some.injEq] at h
    subst h
    obtain ⟨hb0, hb1, hb2, hb3⟩ := hin
    have hadj2 : adjacent (mv.1, mv.2) (blank.1, blank.2) := hadj
    have hsw := manhattan_swap hwf hb0 hb1 hb2 hb3 h1 h2 h3 h4 hadj2 hz
    refine ⟨rfl, swapCells_WF hwf _ _ _ _, ⟨h1, h2, h3, h4⟩, ?_, hsw⟩
    show getCell (swapCells b blank.1 blank.2 mv.1 mv.2) mv.1 mv.2 = 0
    rw [getCell_swapCells hwf hb0 hb1 hb2 hb3 h1 h2 h3 h4 h1 h2 h3 h4,
      if_pos ⟨rfl, rfl⟩]
    exact hz
  · exact Option.noConfusion h

/-- Replaying a move list from a legal state can reduce the Manhattan
distance by at most one per move (admissibility of the heuristic along
any path), and reaches a state satisfying the same legality facts. -/
theorem replay_post {size : Nat} :
    ∀ (mvs : List (Int × Int)) (b : Matrix) (blank : Int × Int)
    (t : Matrix × (Int × Int)),
    WFMat size size b → inBounds (size : Int) blank →
    getCell b blank.1 blank.2 = 0 →
    replay size size b blank mvs = some t →
    WFMat size size t.1 ∧ inBounds (size : Int) t.2 ∧
    getCell t.1 t.2.1 t.2.2 = 0 ∧
    manhattan_distance b size ≤ manhattan_distance t.1 size + mvs.length := by
  intro mvs
  induction mvs with
  | nil =>
    intro b blank t hwf hin hz h
    unfold replay at h
    simp only [Option.some.injEq] at h
    subst h
    refine ⟨hwf, hin, hz, ?_⟩
    dsimp only
    omega
  | cons mv rest ih =>
    intro b blank t hwf hin hz h
    unfold replay at h
    cases hstep : applyMove size size b blank mv with
    | none => rw [hstep] at h; simp at h
    | some u =>
      rw [hstep] at h
      obtain ⟨_, hwfu, hinu, hzu, hmh⟩ := applyMove_post hwf hin hz hstep
      obtain ⟨hwt, hit, hzt, hmt⟩ := ih u.1 u.2 t hwfu hinu hzu h
      refine ⟨hwt, hit, hzt, ?_⟩
      simp only [List.length_cons]
      omega

/-- The Manhattan distance of the goal board is zero. -/
theorem manhattan_goalBoard (size : Nat) :
    manhattan_distance (goalBoard size) size = 0 := by
  rw [manhattan_eq_sum]
  unfold gridSum
  rw [List.sum_eq_zero]
  intro x hx
  obtain ⟨i, hi, rfl⟩ := List.mem_map.mp hx
  rw [List.mem_range] at hi
  rw [List.sum_eq_zero]
  intro y hy
  obtain ⟨j, hj, rfl⟩ := List.mem_map.mp hy
  rw [List.mem_range] at hj
  show mTerm size (goalBoard size) i j = 0
  unfold mTerm
  rw [getCell_goalBoard hi hj]
  by_cases hlast : i = size - 1 ∧ j = size - 1
  · rw [if_pos hlast]
    simp
  · rw [if_pos (by rw [if_neg hlast]; omega),
      if_neg hlast]
    have hgr : (i * size + j + 1 - 1) / size = i := by
      rw [Nat.add_sub_cancel, Nat.mul_comm, Nat.mul_add_div (by omega),
        Nat.div_eq_of_lt hj]
      omega
    have hgc : (i * size + j + 1 - 1) % size = j := by
      rw [Nat.add_sub_cancel, Nat.mul_comm, Nat.mul_add_mod,
        Nat.mod_eq_of_lt hj]
    rw [hgr, hgc]
    omega

/-! ## Counting blank cells -/

/-- Number of cells holding `0`. -/
def zCount (m : Matrix) : Nat := (m.map (fun row => row.count 0)).sum

theorem sum_set (l : List Nat) (n : Nat) (x : Nat) (h : n < l.length) :
    (l.set n x).sum + l.getD n 0 = l.sum + x := by
  induction l generalizing n with
  | nil => simp at h
  | cons a t ih =>
    cases n with
    | zero => simp [List.set_cons_zero]; omega
    | succ n =>
      simp only [List.set_cons_succ, List.getD_cons_succ, List.sum_cons]
      have := ih n (by simpa using h)
      omega

theorem getD_map (l : List α) (f : α → β) (n : Nat) (d : α) (e : β)
    (h : n < l.length) : (l.map f).getD n e = f (l.getD n d) := by
  rw [getD_eq_getElem_of_lt _ _ (by simpa using h),
    getD_eq_getElem_of_lt _ _ h, List.getElem_map]

theorem zCount_setCell {size : Nat} {b : Matrix} (hwf : WFMat size size b)
    {r c : Int} (v : Nat) (h0 : 0 ≤ r) (h1 : r < (size : Int))
    (h2 : 0 ≤ c) (h3 : c < (size : Int)) :
    zCount (setCell b r c v) + (if getCell b r c = 0 then 1 else 0) =
      zCount b + (if v = 0 then 1 else 0) := by
  obtain ⟨hget, hrowlen⟩ := pyGet_row hwf h0 h1
  have hlen : b.length = size := hwf.1
  have hrlt : r.toNat < b.length := by omega
  have hclt : c.toNat < (b.getD r.toNat []).length := by
    rw [hget] at hrowlen
    omega
  rw [setCell_eq hwf v h0 h1 h2 h3]
  unfold zCount
  rw [List.map_set]
  have hsum := sum_set (b.map (fun row => row.count 0)) r.toNat
    (((b.getD r.toNat []).set c.toNat v).count 0) (by simpa using hrlt)
  rw [getD_map b (fun row => row.count 0) r.toNat [] 0 hrlt] at hsum
  have hcnt := count_set (b.getD r.toNat []) c.toNat v 0 0 hclt
  have hcell : getCell b r c = (b.getD r.toNat []).getD c.toNat 0 :=
    getCell_eq hwf h0 h1 h2 h3
  rw [hcell]
  split_ifs at hcnt ⊢ <;> omega

theorem applyMove_zCount {size : Nat} {b : Matrix} {blank mv : Int × Int}
    {t : Matrix × (Int × Int)}
    (hwf : WFMat size size b) (hin : inBounds (size : Int) blank)
    (h : applyMove size size b blank mv = some t) :
    zCount t.1 = zCount b := by
  unfold applyMove at h
  split at h
  · rename_i hcond
    obtain ⟨h1, h2, h3, h4, hadj⟩ := hcond
    simp only [Option.some.injEq] at h
    subst h
    obtain ⟨hb0, hb1, hb2, hb3⟩ := hin
    have hneq : ¬ (mv.1 = blank.1 ∧ mv.2 = blank.2) := by
      unfold adjacent at hadj
      omega
    show zCount (swapCells b blank.1 blank.2 mv.1 mv.2) = zCount b
    unfold swapCells
    have hwf1 := WFMat_setCell hwf blank.1 blank.2 (getCell b mv.1 mv.2)
    have hc1 := zCount_setCell hwf (getCell b mv.1 mv.2) hb0 hb1 hb2 hb3
    have hc2 := zCount_setCell hwf1 (getCell b blank.1 blank.2) h1 h2 h3 h4
    rw [getCell_setCell hwf _ hb0 hb1 hb2 hb3 h1 h2 h3 h4, if_neg hneq]
      at hc2
    split_ifs at hc1 hc2 <;> omega
  · exact Option.noConfusion h

theorem replay_zCount {size : Nat} :
    ∀ (mvs : List (Int × Int)) (b : Matrix) (blank : Int × Int)
    (t : Matrix × (Int × Int)),
    WFMat size size b → inBounds (size : Int) blank →
    getCell b blank.1 blank.2 = 0 →
    replay size size b blank mvs = some t →
    zCount t.1 = zCount b := by
  intro mvs
  induction mvs with
  | nil =>
    intro b blank t _ _ _ h
    unfold replay at h
    simp only [Option.some.injEq] at h
    subst h
    rfl
  | cons mv rest ih =>
    intro b blank t hwf hin hz h
    unfold replay at h
    cases hstep : applyMove size size b blank mv with
    | none => rw [hstep] at h; simp at h
    | some u =>
      rw [hstep] at h
      obtain ⟨_, hwfu, hinu, hzu, _⟩ := applyMove_post hwf hin hz hstep
      rw [ih u.1 u.2 t hwfu hinu hzu h]
      exact applyMove_zCount hwf hin hstep

theorem getD_le_sum (l : List Nat) (i : Nat) (h : i < l.length) :
    l.getD i 0 ≤ l.sum := by
  induction l generalizing i with
  | nil => simp at h
  | cons a t ih =>
    cases i with
    | zero => simp [List.getD_cons_zero]
    | succ i =>
      simp only [List.getD_cons_succ, List.sum_cons]
      have := ih i (by simpa using h)
      omega

theorem getD_pair_le_sum (l : List Nat) (i j : Nat) (hij : i ≠ j)
    (hi : i < l.length) (hj : j < l.length) :
    l.getD i 0 + l.getD j 0 ≤ l.sum := by
  induction l generalizing i j with
  | nil => simp at hi
  | cons a t ih =>
    cases i with
    | zero =>
      cases j with
      | zero => omega
      | succ j =>
        simp only [List.getD_cons_zero, List.getD_cons_succ, List.sum_cons]
        have := getD_le_sum t j (by simpa using hj)
        omega
    | succ i =>
      cases j with
      | zero =>
        simp only [List.getD_cons_zero, List.getD_cons_succ, List.sum_cons]
        have := getD_le_sum t i (by simpa using hi)
        omega
      | succ j =>
        simp only [List.getD_cons_succ, List.sum_cons]
        have := ih i j (by omega) (by simpa using hi) (by simpa using hj)
        omega

theorem count_pos_of_getD (l : List Nat) (i : Nat) (hi : i < l.length)
    (h : l.getD i 0 = 0) : 1 ≤ l.count 0 := by
  rw [getD_eq_getElem_of_lt _ _ hi] at h
  have hmem : (0 : Nat) ∈ l := h ▸ List.getElem_mem _
  exact List.one_le_count_iff.mpr hmem

theorem count_two_of_getD (l : List Nat) (i j : Nat) (hij : i ≠ j)
    (hi : i < l.length) (hj : j < l.length)
    (h1 : l.getD i 0 = 0) (h2 : l.getD j 0 = 0) : 2 ≤ l.count 0 := by
  induction l generalizing i j with
  | nil => simp at hi
  | cons a t ih =>
    cases i with
    | zero =>
      cases j with
      | zero => omega
      | succ j =>
        simp only [List.getD_cons_zero] at h1
        simp only [List.getD_cons_succ] at h2
        have hc := count_pos_of_getD t j (by simpa using hj) h2
        rw [List.count_cons, if_pos (by simp [h1])]
        omega
    | succ i =>
      cases j with
      | zero =>
        simp only [List.getD_cons_zero] at h2
        simp only [List.getD_cons_succ] at h1
        have hc := count_pos_of_getD t i (by simpa using hi) h1
        rw [List.count_cons, if_pos (by simp [h2])]
        omega
      | succ j =>
        simp only [List.getD_cons_succ] at h1 h2
        have := ih i j (by omega) (by simpa using hi) (by simpa using hj)
          h1 h2
        rw [List.count_cons]
        split <;> omega

/-- A board with exactly one blank cell has a unique blank position. -/
theorem zCount_unique {size : Nat} {m : Matrix} (hwf : WFMat size size m)
    (hone : zCount m = 1) {p q : Int × Int}
    (hp : inBounds (size : Int) p) (hq : inBounds (size : Int) q)
    (hzp : getCell m p.1 p.2 = 0) (hzq : getCell m q.1 q.2 = 0) : p = q := by
  by_contra hne
  obtain ⟨hp0, hp1, hp2, hp3⟩ := hp
  obtain ⟨hq0, hq1, hq2, hq3⟩ := hq
  obtain ⟨hlen, hrows⟩ := hwf
  have hplt : p.1.toNat < m.length := by omega
  have hqlt : q.1.toNat < m.length := by omega
  have hprow : (m.getD p.1.toNat []).length = size := by
    rw [getD_eq_getElem_of_lt _ _ hplt]
    exact hrows _ (List.getElem_mem _)
  have hqrow : (m.getD q.1.toNat []).length = size := by
    rw [getD_eq_getElem_of_lt _ _ hqlt]
    exact hrows _ (List.getElem_mem _)
  have hcp : (m.getD p.1.toNat []).getD p.2.toNat 0 = 0 := by
    rw [← getCell_eq ⟨hlen, hrows⟩ hp0 hp1 hp2 hp3]
    exact hzp
  have hcq : (m.getD q.1.toNat []).getD q.2.toNat 0 = 0 := by
    rw [← getCell_eq ⟨hlen, hrows⟩ hq0 hq1 hq2 hq3]
    exact hzq
  unfold zCount at hone
  by_cases hrow : p.1.toNat = q.1.toNat
  · have hcol : p.2.toNat ≠ q.2.toNat := by
      intro hc
      apply hne
      have : p.1 = q.1 := by omega
      have : p.2 = q.2 := by omega
      exact Prod.ext (by omega) (by omega)
    rw [hrow] at hcp
    have h2 := count_two_of_getD (m.getD q.1.toNat []) p.2.toNat q.2.toNat
      hcol (by omega) (by omega) hcp hcq
    have hle := getD_le_sum (m.map (fun row => row.count 0)) q.1.toNat
      (by simpa using hqlt)
    rw [getD_map m (fun row => row.count 0) q.1.toNat [] 0 hqlt] at hle
    omega
  · have hcp1 := count_pos_of_getD (m.getD p.1.toNat []) p.2.toNat
      (by omega) hcp
    have hcq1 := count_pos_of_getD (m.getD q.1.toNat []) q.2.toNat
      (by omega) hcq
    have hle := getD_pair_le_sum (m.map (fun row => row.count 0))
      p.1.toNat q.1.toNat hrow (by simpa using hplt) (by simpa using hqlt)
    rw [getD_map m (fun row => row.count 0) p.1.toNat [] 0 hplt,
      getD_map m (fun row => row.count 0) q.1.toNat [] 0 hqlt] at hle
    omega

/-! ## Shortest-path distance between puzzle states -/

/-- Some move list of length `n` legally transforms `s` into `t`. -/
def ReachIn (size : Nat) (s t : Matrix × (Int × Int)) (n : Nat) : Prop :=
  ∃ mvs : List (Int × Int), mvs.length = n ∧
    replay size size s.1 s.2 mvs = some t

/-- `n` is the length of a shortest legal move list from `s` to `t`. -/
def IsDist (size : Nat) (s t : Matrix × (Int × Int)) (n : Nat) : Prop :=
  ReachIn size s t n ∧ ∀ k, ReachIn size s t k → n ≤ k

theorem isDist_exists {size : Nat} {s t : Matrix × (Int × Int)} {n : Nat}
    (h : ReachIn size s t n) : ∃ k, IsDist size s t k ∧ k ≤ n := by
  classical
  have hP : ∃ k, ReachIn size s t k := ⟨n, h⟩
  exact ⟨Nat.find hP, ⟨Nat.find_spec hP, fun k hk => Nat.find_min' hP hk⟩,
    Nat.find_min' hP h⟩

theorem isDist_unique {size : Nat} {s t : Matrix × (Int × Int)} {n k : Nat}
    (h1 : IsDist size s t n) (h2 : IsDist size s t k) : n = k :=
  Nat.le_antisymm (h1.2 k h2.1) (h2.2 n h1.1)

theorem replay_cons (rows cols : Int) (m : Matrix) (bl mv : Int × Int)
    (L : List (Int × Int)) :
    replay rows cols m bl (mv :: L) =
      match applyMove rows cols m bl mv with
      | none => none
      | some u => replay rows cols u.1 u.2 L := by
  cases h : applyMove rows cols m bl mv with
  | none =>
    simp only [replay, h]
  | some u =>
    obtain ⟨m2, b2⟩ := u
    simp only [replay, h]

theorem replay_append_eq (rows cols : Int) :
    ∀ (l1 l2 : List (Int × Int)) (m : Matrix) (bl : Int × Int),
    replay rows cols m bl (l1 ++ l2) =
      match replay rows cols m bl l1 with
      | none => none
      | some u => replay rows cols u.1 u.2 l2 := by
  intro l1
  induction l1 with
  | nil =>
    intro l2 m bl
    rfl
  | cons mv rest ih =>
    intro l2 m bl
    rw [show (mv :: rest) ++ l2 = mv :: (rest ++ l2) from rfl, replay_cons,
      replay_cons]
    cases h : applyMove rows cols m bl mv with
    | none => rfl
    | some u =>
      dsimp only
      exact ih l2 u.1 u.2

theorem reachIn_trans {size : Nat} {s u t : Matrix × (Int × Int)} {a b : Nat}
    (h1 : ReachIn size s u a) (h2 : ReachIn size u t b) :
    ReachIn size s t (a + b) := by
  obtain ⟨l1, hl1, hr1⟩ := h1
  obtain ⟨l2, hl2, hr2⟩ := h2
  refine ⟨l1 ++ l2, by simp [hl1, hl2], ?_⟩
  rw [replay_append_eq, hr1]
  exact hr2

theorem reachIn_refl (size : Nat) (s : Matrix × (Int × Int)) :
    ReachIn size s s 0 := ⟨[], rfl, rfl⟩

/-- Prefixes of an optimal path are optimal. -/
theorem isDist_prefix {size : Nat} {s t : Matrix × (Int × Int)} {n : Nat}
    (hd : IsDist size s t n) {mvs : List (Int × Int)} (hlen : mvs.length = n)
    (hrep : replay size size s.1 s.2 mvs = some t) (j : Nat) (hj : j ≤ n)
    {u : Matrix × (Int × Int)}
    (hu : replay size size s.1 s.2 (List.take j mvs) = some u) :
    IsDist size s u j := by
  have htake : (List.take j mvs).length = j := by
    rw [List.length_take]
    omega
  have hdrop : replay size size u.1 u.2 (List.drop j mvs) = some t := by
    have := replay_append_eq size size (List.take j mvs) (List.drop j mvs)
      s.1 s.2
    rw [List.take_append_drop, hrep, hu] at this
    exact this.symm
  refine ⟨⟨List.take j mvs, htake, hu⟩, ?_⟩
  intro k hk
  have hrest : ReachIn size u t (List.drop j mvs).length :=
    ⟨List.drop j mvs, rfl, hdrop⟩
  have hcomp := reachIn_trans hk hrest
  have hmin := hd.2 _ hcomp
  rw [List.length_drop, hlen] at hmin
  omega

/-! ## C1: every returned move list replays to the goal board -/

/-- **C1.** For every move list returned by either solver on a well-formed
board — `solve_human` (Layer-Reduction / StrategicSolver.solve_human),
`AStarSolver.solve` (Priority Search, Optimal strategy), or `solve_bfs`
(Priority Search, greedy strategy) — sequential application of the moves
from the initial board succeeds and reaches exactly the goal board, where
applying a move requires its coordinate to be in bounds and orthogonally
adjacent to the blank at that moment and swaps the blank with the tile at
that coordinate (this is what `replay` returning `some` with the goal
board states). -/
theorem solver_moves_replay_to_goal :
    (∀ (size fuel : Nat) (b : Matrix) (mv : List (Int × Int)),
      WFMat size size b → 1 ≤ size →
      solve_human size fuel b = .moves mv →
      ∃ bp bp', findBlankAux 0 b = some bp ∧
        replay size size b bp mv = some (goalBoard size, bp')) ∧
    (∀ (size : Nat) (timeHit : Nat → Bool) (fuel : Nat) (b : Matrix)
        (pos : Int × Int) (mv : List (Int × Int)),
      WFMat size size b → inBounds (size : Int) pos →
      getCell b pos.1 pos.2 = 0 →
      AStarSolver.solve size timeHit fuel b pos = .path mv →
      ∃ bp, replay size size b pos mv = some (goalBoard size, bp)) ∧
    (∀ (size : Nat) (timeHit : Nat → Bool) (fuel : Nat) (b : Matrix)
        (pos : Int × Int) (mv : List (Int × Int)),
      WFMat size size b → inBounds (size : Int) pos →
      getCell b pos.1 pos.2 = 0 →
      solve_bfs size timeHit fuel b pos = .path mv →
      ∃ bp, replay size size b pos mv = some (goalBoard size, bp)) :=
  ⟨fun size fuel b mv hwf hs h => solve_human_replay size fuel b mv hwf hs h,
   fun size timeHit fuel b pos mv hwf hin hz h =>
     astar_solve_replay size timeHit fuel b pos mv hwf hin hz h,
   fun size timeHit fuel b pos mv hwf hin hz h =>
     bfs_solve_replay size timeHit fuel b pos mv hwf hin hz h⟩

/-- Witness for `solver_moves_replay_to_goal`: on the 2×2 board
`[[1,2],[0,3]]` the three solvers return concrete move lists (the
Layer-Reduction solver an 11-move tour, the two priority searches the
single move `(1,1)`), and each list replays from the initial board to the
goal board `[[1,2],[3,0]]`. -/
theorem solver_moves_replay_to_goal_witness :
    (∃ bp bp', findBlankAux 0 [[1,2],[0,3]] = some bp ∧
      replay 2 2 [[1,2],[0,3]] bp
        [(0,0),(0,1),(1,1),(1,0),(0,0),(0,1),(1,1),(1,0),(0,0),(0,1),(1,1)]
        = some (goalBoard 2, bp')) ∧
    (∃ bp, replay 2 2 [[1,2],[0,3]] (1,0) [(1,1)]
        = some (goalBoard 2, bp)) ∧
    (∃ bp, replay 2 2 [[1,2],[0,3]] (1,0) [(1,1)]
        = some (goalBoard 2, bp)) :=
  ⟨solver_moves_replay_to_goal.1 2 1000 [[1,2],[0,3]]
      [(0,0),(0,1),(1,1),(1,0),(0,0),(0,1),(1,1),(1,0),(0,0),(0,1),(1,1)]
      ⟨rfl, by decide⟩ (by decide) (by rfl),
   solver_moves_replay_to_goal.2.1 2 (fun _ => false) 1000 [[1,2],[0,3]]
      (1,0) [(1,1)] ⟨rfl, by decide⟩ (by decide) (by rfl) (by rfl),
   solver_moves_replay_to_goal.2.2 2 (fun _ => false) 1000 [[1,2],[0,3]]
      (1,0) [(1,1)] ⟨rfl, by decide⟩ (by decide) (by rfl) (by rfl)⟩

end SlidePuzzle